import Mathlib

/-!
Verification of the decentralized mesh data plane core
(`src/Decentralised_mesh`): ChunkStore, Scheduler, Consensus DAG ledger,
and Routing, shallowly embedded from the C++ sources.

Conventions used throughout:
* byte vectors (`std::vector<uint8_t>`) are `List Nat`;
* `float` quantities are modelled exactly over `ℚ` (the properties checked
  here are sign/ordering facts that are float-exact at the inputs involved);
* `std::chrono::system_clock::time_point` is an `Int`;
* `std::unordered_map` is a function into `Option`, updated pointwise;
* external library primitives (SHA-256, zstd, PBKDF2, AES-GCM) are
  parameters of the development, with their documented contracts taken as
  hypotheses of the theorems that need them.
-/

/-- Pointwise update of a map, i.e. `m[k] = v` on a `std::unordered_map`. -/
def mapPut {α β : Type} [DecidableEq α] (f : α → Option β) (k : α) (v : β) :
    α → Option β :=
  fun x => if x = k then some v else f x

theorem mapPut_same {α β : Type} [DecidableEq α] (f : α → Option β) (k : α) (v : β) :
    mapPut f k v k = some v := by
  simp [mapPut]

theorem mapPut_other {α β : Type} [DecidableEq α] (f : α → Option β) (k x : α) (v : β)
    (h : x ≠ k) : mapPut f k v x = f x := by
  simp [mapPut, h]

namespace Meshnet

namespace Consensus

/-- `DAGEntry` from `include/Consensus.hpp`. -/
structure DAGEntry where
  entry_id : String
  chunk_hash : String
  device_ids : List String
  parent_ids : List String
  timestamp : Int
  version : Nat
  creator : String
deriving DecidableEq

/-- The two maps owned by `Consensus`: `dag_` (per-chunk histories, a missing
key reads as the empty history) and `entry_by_id_`. -/
structure State where
  dag : String → List DAGEntry
  byId : String → Option DAGEntry

/-- A freshly constructed `Consensus` ledger. -/
def initState : State := ⟨fun _ => [], fun _ => none⟩

/-- `Consensus::generate_entry_id`: hex SHA-256 over
`chunk_hash ∥ concat(device_ids) ∥ decimal(version)`; `sha` is the digest
function, kept abstract. -/
def generate_entry_id (sha : String → String) (e : DAGEntry) : String :=
  sha (e.chunk_hash ++ String.join e.device_ids ++ toString e.version)

/-- `Consensus::add_entry`. `now` is the value of
`std::chrono::system_clock::now()` at the call. -/
def add_entry (sha : String → String) (s : State) (chunk_hash : String)
    (device_ids : List String) (creator : String) (now : Int) : String × State :=
  let history := s.dag chunk_hash
  let pv : List String × Nat :=
    match history.getLast? with
    | some lst => ([lst.entry_id], lst.version + 1)
    | none => ([], 1)
  let e0 : DAGEntry :=
    { entry_id := "", chunk_hash := chunk_hash, device_ids := device_ids,
      parent_ids := pv.1, timestamp := now, version := pv.2, creator := creator }
  let eid := generate_entry_id sha e0
  let e := { e0 with entry_id := eid }
  (eid,
   { dag := fun h => if h = chunk_hash then history ++ [e] else s.dag h,
     byId := mapPut s.byId eid e })

/-- The `std::lower_bound` + `insert` of `Consensus::merge_entry`: the entry
is placed before the first element whose timestamp is not smaller. -/
def insertTs (e : DAGEntry) (l : List DAGEntry) : List DAGEntry :=
  List.orderedInsert (fun a b => a.timestamp ≤ b.timestamp) e l

/-- `Consensus::merge_entry`. -/
def merge_entry (s : State) (e : DAGEntry) : State :=
  if (s.byId e.entry_id).isSome then s
  else
    { dag := fun h =>
        if h = e.chunk_hash then insertTs e (s.dag e.chunk_hash) else s.dag h,
      byId := mapPut s.byId e.entry_id e }

/-- `Consensus::get_latest`: `history.back()` of a non-empty history,
`nullptr` otherwise. -/
def get_latest (s : State) (h : String) : Option DAGEntry :=
  (s.dag h).getLast?

/-- `Consensus::get_history`. -/
def get_history (s : State) (h : String) : List DAGEntry :=
  s.dag h

/-- Merging a batch of remote entries in sequence. -/
def run_merges (s : State) (es : List DAGEntry) : State :=
  es.foldl merge_entry s

/-- C5: merging the same DAG entry twice leaves the per-chunk histories and
the id index identical to merging it once: the second call sees
`entry.entry_id` already indexed and is a no-op. -/
theorem merge_entry_idempotent (s : State) (e : DAGEntry) :
    merge_entry (merge_entry s e) e = merge_entry s e := by
  by_cases h : (s.byId e.entry_id).isSome
  · simp [merge_entry, h]
  · simp [merge_entry, h, mapPut_same]

/-- Comparison by timestamp, the key used by `merge_entry`'s insertion. -/
def tsLE (a b : DAGEntry) : Prop := a.timestamp ≤ b.timestamp

/-- Strict comparison by timestamp. -/
def tsLT (a b : DAGEntry) : Prop := a.timestamp < b.timestamp

instance : DecidableRel tsLE := fun a b => inferInstanceAs (Decidable (a.timestamp ≤ b.timestamp))

instance : IsTotal DAGEntry tsLE := ⟨fun a b => Int.le_total a.timestamp b.timestamp⟩

instance : IsTrans DAGEntry tsLE := ⟨fun _ _ _ h h' => le_trans h h'⟩

instance : IsAntisymm DAGEntry tsLT :=
  ⟨fun _ _ h h' => absurd (lt_trans h h') (lt_irrefl _)⟩

theorem insertTs_eq_orderedInsert (e : DAGEntry) (l : List DAGEntry) :
    insertTs e l = List.orderedInsert tsLE e l := rfl

theorem symm_ne_id : ∀ {a b : DAGEntry}, a.entry_id ≠ b.entry_id → b.entry_id ≠ a.entry_id :=
  fun h heq => h heq.symm

theorem symm_ne_ts : ∀ {a b : DAGEntry}, a.timestamp ≠ b.timestamp → b.timestamp ≠ a.timestamp :=
  fun h heq => h heq.symm

/-- Merging a batch never blocks on the id index when all ids are fresh, and
the history at `H` is the fold of ordered insertions of the entries whose
`chunk_hash` is `H`. -/
theorem run_merges_dag (es : List DAGEntry) (s : State) (H : String)
    (hid : es.Pairwise (fun a b => a.entry_id ≠ b.entry_id))
    (hfresh : ∀ e ∈ es, s.byId e.entry_id = none) :
    (run_merges s es).dag H =
      (es.filter (fun e => e.chunk_hash == H)).foldl (fun l e => insertTs e l) (s.dag H) := by
  induction es generalizing s with
  | nil => rfl
  | cons e tl ih =>
    have hnone : s.byId e.entry_id = none := hfresh e (List.mem_cons_self e tl)
    have hstep : merge_entry s e =
        { dag := fun h =>
            if h = e.chunk_hash then insertTs e (s.dag e.chunk_hash) else s.dag h,
          byId := mapPut s.byId e.entry_id e } := by
      simp [merge_entry, hnone]
    have hfresh' : ∀ e' ∈ tl, (merge_entry s e).byId e'.entry_id = none := by
      intro e' he'
      have hne : e'.entry_id ≠ e.entry_id :=
        fun h => (List.pairwise_cons.mp hid).1 e' he' h.symm
      rw [hstep]
      simpa [mapPut, hne] using hfresh e' (List.mem_cons_of_mem _ he')
    have := ih (merge_entry s e) (List.pairwise_cons.mp hid).2 hfresh'
    rw [run_merges, List.foldl_cons, ← run_merges, this, hstep]
    by_cases hc : e.chunk_hash = H
    · simp [List.filter_cons, hc]
    · have : (e.chunk_hash == H) = false := by simp [hc]
      simp [List.filter_cons, this, hc, Ne.symm hc]

theorem foldl_insertTs_perm (es : List DAGEntry) (l₀ : List DAGEntry) :
    (es.foldl (fun l e => insertTs e l) l₀).Perm (l₀ ++ es) := by
  induction es generalizing l₀ with
  | nil => simp
  | cons e tl ih =>
    exact ((ih (insertTs e l₀)).trans
      (((List.perm_orderedInsert tsLE e l₀).append_right tl).trans
        List.perm_middle.symm))

theorem foldl_insertTs_sorted (es : List DAGEntry) (l₀ : List DAGEntry)
    (h : l₀.Sorted tsLE) :
    (es.foldl (fun l e => insertTs e l) l₀).Sorted tsLE := by
  induction es generalizing l₀ with
  | nil => exact h
  | cons e tl ih => exact ih _ (List.Sorted.orderedInsert e l₀ h)

/-- C6 (amended): merging a batch of entries with distinct ids, and pairwise
distinct timestamps within any one chunk, into an empty ledger yields a
history at `H` that does not depend on the merge order and is sorted
non-decreasingly by timestamp. -/
theorem merge_perm_history (es es' : List DAGEntry) (H : String)
    (hperm : es.Perm es')
    (hid : es.Pairwise (fun a b => a.entry_id ≠ b.entry_id))
    (hts : es.Pairwise
      (fun a b => a.chunk_hash = b.chunk_hash → a.timestamp ≠ b.timestamp)) :
    get_history (run_merges initState es) H = get_history (run_merges initState es') H ∧
    (get_history (run_merges initState es) H).Sorted tsLE := by
  have hid' : es'.Pairwise (fun a b => a.entry_id ≠ b.entry_id) :=
    (hperm.pairwise_iff symm_ne_id).mp hid
  have h1 := run_merges_dag es initState H hid (fun _ _ => rfl)
  have h2 := run_merges_dag es' initState H hid' (fun _ _ => rfl)
  have hs1 : (get_history (run_merges initState es) H).Sorted tsLE := by
    rw [get_history, h1]
    exact foldl_insertTs_sorted _ _ (List.sorted_nil)
  have hs2 : (get_history (run_merges initState es') H).Sorted tsLE := by
    rw [get_history, h2]
    exact foldl_insertTs_sorted _ _ (List.sorted_nil)
  have hp1 : (get_history (run_merges initState es) H).Perm
      (es.filter (fun e => e.chunk_hash == H)) := by
    rw [get_history, h1]
    simpa using foldl_insertTs_perm _ ([] : List DAGEntry)
  have hp2 : (get_history (run_merges initState es') H).Perm
      (es'.filter (fun e => e.chunk_hash == H)) := by
    rw [get_history, h2]
    simpa using foldl_insertTs_perm _ ([] : List DAGEntry)
  have hpp : (get_history (run_merges initState es) H).Perm
      (get_history (run_merges initState es') H) :=
    (hp1.trans (hperm.filter _)).trans hp2.symm
  -- distinct timestamps inside the history at H
  have hne1 : (get_history (run_merges initState es) H).Pairwise
      (fun a b => a.timestamp ≠ b.timestamp) := by
    have hsub : (es.filter (fun e => e.chunk_hash == H)).Pairwise
        (fun a b => a.chunk_hash = b.chunk_hash → a.timestamp ≠ b.timestamp) :=
      hts.sublist (List.filter_sublist es)
    have hfil : (es.filter (fun e => e.chunk_hash == H)).Pairwise
        (fun a b => a.timestamp ≠ b.timestamp) := by
      refine hsub.imp_of_mem ?_
      intro a b ha hb hab
      have ha' : a.chunk_hash = H := by simpa using (List.of_mem_filter ha)
      have hb' : b.chunk_hash = H := by simpa using (List.of_mem_filter hb)
      exact hab (ha'.trans hb'.symm)
    exact (hp1.pairwise_iff symm_ne_ts).mpr hfil
  have hlt1 : (get_history (run_merges initState es) H).Sorted tsLT :=
    (hs1.and hne1).imp (fun h => lt_of_le_of_ne h.1 h.2)
  have hne2 : (get_history (run_merges initState es') H).Pairwise
      (fun a b => a.timestamp ≠ b.timestamp) :=
    (hpp.pairwise_iff symm_ne_ts).mp hne1
  have hlt2 : (get_history (run_merges initState es') H).Sorted tsLT :=
    (hs2.and hne2).imp (fun h => lt_of_le_of_ne h.1 h.2)
  exact ⟨List.eq_of_perm_of_sorted hpp hlt1 hlt2, hs1⟩

/-- First entry for the C6 counterexample (timestamp 5). -/
def entA : DAGEntry :=
  { entry_id := "a", chunk_hash := "H", device_ids := [], parent_ids := [],
    timestamp := 5, version := 1, creator := "c" }

/-- Second entry for the C6 counterexample (same timestamp 5, distinct id). -/
def entB : DAGEntry :=
  { entry_id := "b", chunk_hash := "H", device_ids := [], parent_ids := [],
    timestamp := 5, version := 1, creator := "c" }

/-- C6 counterexample: two entries with distinct ids but equal timestamps
merged in the two orders produce different `get_history` results (the
`lower_bound` insertion places a newly merged entry before equal-timestamp
neighbours), so the history is not permutation-independent as claimed. -/
theorem merge_order_counterexample :
    get_history (run_merges initState [entA, entB]) "H" ≠
      get_history (run_merges initState [entB, entA]) "H" := by
  decide

/-- Entries for the C6 witness (distinct timestamps 3 and 7). -/
def entC : DAGEntry :=
  { entry_id := "c1", chunk_hash := "H", device_ids := [], parent_ids := [],
    timestamp := 7, version := 1, creator := "c" }

/-- Second entry for the C6 witness. -/
def entD : DAGEntry :=
  { entry_id := "d1", chunk_hash := "H", device_ids := [], parent_ids := [],
    timestamp := 3, version := 1, creator := "c" }

/-- Witness for the amended C6 theorem at a concrete pair of merge orders. -/
theorem merge_perm_history_witness :
    get_history (run_merges initState [entC, entD]) "H" =
      get_history (run_merges initState [entD, entC]) "H" ∧
    (get_history (run_merges initState [entC, entD]) "H").Sorted tsLE :=
  merge_perm_history [entC, entD] [entD, entC] "H" (by decide) (by decide) (by decide)

/-- In a history sorted non-decreasingly by timestamp, the last element has
the largest timestamp. -/
theorem sorted_getLast_max : ∀ {l : List DAGEntry}, l.Sorted tsLE →
    ∀ {lst : DAGEntry}, l.getLast? = some lst → ∀ e ∈ l, e.timestamp ≤ lst.timestamp := by
  intro l
  induction l with
  | nil => intro _ lst hlst; simp at hlst
  | cons x xs ih =>
    intro hs lst hlst e he
    cases xs with
    | nil =>
      simp only [List.getLast?_singleton, Option.some.injEq] at hlst
      simp only [List.mem_singleton] at he
      subst hlst he
      exact le_refl _
    | cons y ys =>
      have hlst' : (y :: ys).getLast? = some lst := by
        simpa [List.getLast?_cons_cons] using hlst
      rcases List.mem_cons.mp he with rfl | hmem
      · have hlm : lst ∈ y :: ys := List.mem_of_mem_getLast? (by simp [hlst'])
        exact (List.pairwise_cons.mp hs).1 lst hlm
      · exact ih (List.pairwise_cons.mp hs).2 hlst' e hmem

/-- One public call on the ledger: a local `add_entry` (with the wall-clock
reading taken at the call) or a remote `merge_entry`. -/
inductive Op where
  | add : String → List String → String → Int → Op
  | merge : DAGEntry → Op
deriving DecidableEq

/-- Apply one call to the ledger state. -/
def stepOp (sha : String → String) (s : State) : Op → State
  | Op.add c d cr now => (add_entry sha s c d cr now).2
  | Op.merge e => merge_entry s e

/-- Run a sequence of calls from a state. -/
def runOps (sha : String → String) (s : State) (ops : List Op) : State :=
  ops.foldl (stepOp sha) s

/-- A trace is clock-consistent when every `add_entry` call's wall-clock
reading is at least every timestamp already present in the touched chunk's
history (true in particular for merge-only traces). -/
def okTrace (sha : String → String) : State → List Op → Prop
  | _, [] => True
  | s, op :: rest =>
    (match op with
     | Op.add c _ _ now => ∀ e ∈ s.dag c, e.timestamp ≤ now
     | Op.merge _ => True) ∧ okTrace sha (stepOp sha s op) rest

instance instDecOkTrace (sha : String → String) (s : State) (ops : List Op) :
    Decidable (okTrace sha s ops) := by
  induction ops generalizing s with
  | nil => exact .isTrue trivial
  | cons op rest ih =>
    have h2 : Decidable (okTrace sha (stepOp sha s op) rest) := ih (stepOp sha s op)
    unfold okTrace
    cases op with
    | add c d cr now => exact @instDecidableAnd _ _ (List.decidableBAll _ _) h2
    | merge e => exact @instDecidableAnd _ _ inferInstance h2

/-- `add_entry` appends a single entry carrying the wall-clock timestamp to
the touched chunk's history and leaves other histories unchanged. -/
theorem add_entry_dag (sha : String → String) (s : State) (c : String)
    (d : List String) (cr : String) (now : Int) :
    ∃ e : DAGEntry, e.timestamp = now ∧
      ((add_entry sha s c d cr now).2).dag =
        fun h => if h = c then s.dag c ++ [e] else s.dag h :=
  ⟨_, rfl, rfl⟩

/-- Every per-chunk history stays sorted non-decreasingly by timestamp along
a clock-consistent trace. -/
theorem runOps_sorted (sha : String → String) (ops : List Op) :
    ∀ (s : State), (∀ K, (s.dag K).Sorted tsLE) → okTrace sha s ops →
      ∀ K, ((runOps sha s ops).dag K).Sorted tsLE := by
  induction ops with
  | nil => intro s hs _ K; exact hs K
  | cons op rest ih =>
    intro s hs hok K
    obtain ⟨h1, h2⟩ := hok
    refine ih (stepOp sha s op) ?_ h2 K
    intro K'
    cases op with
    | add c d cr now =>
      have h1' : ∀ e ∈ s.dag c, e.timestamp ≤ now := h1
      obtain ⟨e, hts, hdag⟩ := add_entry_dag sha s c d cr now
      have hstep : stepOp sha s (Op.add c d cr now) = (add_entry sha s c d cr now).2 := rfl
      have hdK : (stepOp sha s (Op.add c d cr now)).dag K' =
          if K' = c then s.dag c ++ [e] else s.dag K' := by
        rw [hstep, hdag]
      rw [hdK]
      by_cases hK : K' = c
      · rw [if_pos hK]
        rw [List.Sorted, List.pairwise_append]
        refine ⟨hs c, List.pairwise_singleton _ _, ?_⟩
        intro a ha b hb
        have hb' : b = e := List.mem_singleton.mp hb
        subst hb'
        rw [tsLE, hts]
        exact h1' a ha
      · rw [if_neg hK]
        exact hs K'
    | merge e =>
      by_cases hb : (s.byId e.entry_id).isSome
      · have hstep : stepOp sha s (Op.merge e) = s := by
          simp [stepOp, merge_entry, hb]
        rw [hstep]
        exact hs K'
      · have hstep : (stepOp sha s (Op.merge e)).dag K' =
            if K' = e.chunk_hash then insertTs e (s.dag e.chunk_hash) else s.dag K' := by
          simp [stepOp, merge_entry, hb]
        rw [hstep]
        by_cases hK : K' = e.chunk_hash
        · rw [if_pos hK]
          exact List.Sorted.orderedInsert e _ (hs e.chunk_hash)
        · rw [if_neg hK]
          exact hs K'

/-- C7 (amended): `get_latest` returns the last element of the per-chunk
history; along any clock-consistent interleaving of `add_entry` and
`merge_entry` (in particular after merges alone) that element has the
largest timestamp in `get_history`. -/
theorem get_latest_last_max_ts (sha : String → String) (ops : List Op) (H : String)
    (hok : okTrace sha initState ops) :
    get_latest (runOps sha initState ops) H =
      ((runOps sha initState ops).dag H).getLast? ∧
    ∀ lst, get_latest (runOps sha initState ops) H = some lst →
      ∀ e ∈ get_history (runOps sha initState ops) H, e.timestamp ≤ lst.timestamp := by
  have hsort := runOps_sorted sha ops initState (fun _ => List.sorted_nil) hok H
  exact ⟨rfl, fun lst hlst e he => sorted_getLast_max hsort hlst e he⟩

/-- A remote entry with a timestamp ahead of the local clock. -/
def entE100 : DAGEntry :=
  { entry_id := "zzz", chunk_hash := "H", device_ids := ["d0"], parent_ids := [],
    timestamp := 100, version := 1, creator := "B" }

/-- The entry `add_entry` appends at local wall-clock 50 after merging
`entE100` (its id under the identity digest is `"H" ++ "d" ++ "2"`). -/
def entAdded : DAGEntry :=
  { entry_id := "Hd2", chunk_hash := "H", device_ids := ["d"], parent_ids := ["zzz"],
    timestamp := 50, version := 2, creator := "A" }

/-- The C7 counterexample trace: merge a remote entry with timestamp 100,
then `add_entry` at wall-clock 50. -/
def opsBad : List Op := [Op.merge entE100, Op.add "H" ["d"] "A" 50]

/-- C7 counterexample: after merging a remote entry with timestamp 100 and
then calling `add_entry` at wall-clock 50, `get_latest` returns the appended
entry (timestamp 50) even though the history holds an entry with the larger
timestamp 100 — so the returned entry does not have the largest timestamp. -/
theorem get_latest_counterexample :
    get_latest (runOps id initState opsBad) "H" = some entAdded ∧
    entE100 ∈ get_history (runOps id initState opsBad) "H" ∧
    entAdded.timestamp < entE100.timestamp := by
  decide

/-- A clock-consistent concrete trace for the C7 witness. -/
def opsGood : List Op := [Op.add "H" [] "A" 1, Op.add "H" [] "A" 2]

/-- Witness for the amended C7 theorem on a concrete trace. -/
theorem get_latest_last_max_ts_witness :
    okTrace id initState opsGood ∧
    (get_latest (runOps id initState opsGood) "H" =
        ((runOps id initState opsGood).dag "H").getLast? ∧
      ∀ lst, get_latest (runOps id initState opsGood) "H" = some lst →
        ∀ e ∈ get_history (runOps id initState opsGood) "H",
          e.timestamp ≤ lst.timestamp) :=
  ⟨by decide, get_latest_last_max_ts id opsGood "H" (by decide)⟩

end Consensus

namespace Scheduler

/-- `Telemetry` from `include/Telemetry.hpp` (`float` fields over `ℚ`). -/
structure Telemetry where
  device_id : String
  battery_percent : ℚ
  cpu_load_percent : ℚ
  ram_usage_percent : ℚ
  idle_percent : ℚ
  link_quality : ℚ
  available_storage_mb : Nat
  is_plugged_in : Bool
  timestamp : Int
deriving DecidableEq

/-- The `Telemetry` default constructor. -/
def defaultTelemetry : Telemetry :=
  { device_id := "", battery_percent := 100, cpu_load_percent := 0,
    ram_usage_percent := 0, idle_percent := 100, link_quality := 1,
    available_storage_mb := 1024, is_plugged_in := false, timestamp := 0 }

/-- `Telemetry::compute_score`. -/
def compute_score (t : Telemetry) : ℚ :=
  (if t.is_plugged_in then 20 else t.battery_percent / 100 * 20)
    + (100 - t.cpu_load_percent) / 100 * 30
    + (100 - t.ram_usage_percent) / 100 * 20
    + t.idle_percent / 100 * 20
    + t.link_quality * 10

/-- `Scheduler::score_device_for_storage`. `required_mb` is the C++
`size_t` division `data_size_bytes / (1024*1024)`, i.e. the floor.
When `required_mb = 0` the C++ float division by zero produces `inf`
(or `NaN` for `0/0`), and `std::min(30.0f, x)` returns `30.0f` in both
cases, so the storage term is 30 there. -/
def score_device_for_storage (t : Telemetry) (data_size_bytes : Nat) : ℚ :=
  let required_mb := data_size_bytes / (1024 * 1024)
  if t.available_storage_mb < required_mb then 0
  else
    (if required_mb = 0 then 30
     else min 30 ((t.available_storage_mb : ℚ) / (required_mb : ℚ) * 5))
      + (if t.is_plugged_in then 25 else t.battery_percent / 100 * 25)
      + t.link_quality * 25
      + (100 - t.cpu_load_percent) / 100 * 10
      + (100 - t.ram_usage_percent) / 100 * 10

/-- `Scheduler::score_device_for_compute`. -/
def score_device_for_compute (t : Telemetry) : ℚ :=
  compute_score t

/-- Descending sort by score, as the `std::sort` with comparator
`a.second > b.second` (tie order among equal scores is unspecified there;
the insertion sort used here fixes one such order, and nothing proved below
depends on the tie order). -/
def sortPairsDesc (l : List (String × ℚ)) : List (String × ℚ) :=
  List.insertionSort (fun a b => b.2 ≤ a.2) l

/-- `Scheduler::select_devices`: keep positive-score candidates, sort by
score descending, take the first `count`. -/
def select_devices (candidates : List String) (scores : List ℚ) (count : Int) :
    List String :=
  let pairs := (candidates.zip scores).filter (fun p => decide (0 < p.2))
  let sorted := sortPairsDesc pairs
  (sorted.map Prod.fst).take (min count (sorted.length : Int)).toNat

/-- `Placement` from `include/Scheduler.hpp`. -/
structure Placement where
  chunk_hash : String
  device_ids : List String
  score : ℚ
deriving DecidableEq

/-- The `Scheduler`'s state: the replication factor and the registered
`device_id → Telemetry` table (`std::unordered_map`, modelled as an
association list in iteration order; map keys are unique). -/
structure State where
  replication_factor : Int
  devices : List (String × Telemetry)

/-- `devices_.at(device_id)` (the key is always present where used). -/
def lookupTel (sch : State) (d : String) : Telemetry :=
  ((sch.devices.find? (fun p => p.1 == d)).map Prod.snd).getD defaultTelemetry

/-- `Scheduler::place_chunks`. -/
def place_chunks (sch : State) (chunk_hashes : List String)
    (chunk_size_bytes : Nat) : List Placement :=
  chunk_hashes.map (fun h =>
    let candidates := sch.devices.map Prod.fst
    let scores := sch.devices.map
      (fun p => score_device_for_storage p.2 chunk_size_bytes)
    let ids := select_devices candidates scores sch.replication_factor
    let total := (ids.map
      (fun d => score_device_for_storage (lookupTel sch d) chunk_size_bytes)).sum
    { chunk_hash := h, device_ids := ids,
      score := if ids = [] then 0 else total / (ids.length : ℚ) })

/-- `Scheduler::place_shard`. The C++ weights `0.4f`/`0.6f` are written as
the rationals `2/5`/`3/5`; only the sign of the blended score matters in the
facts proved here, and it agrees with the float computation. -/
def place_shard (sch : State) (shard_id : String) (shard_size_bytes : Nat) :
    Placement :=
  let candidates := sch.devices.map Prod.fst
  let scores := sch.devices.map (fun p =>
    score_device_for_storage p.2 shard_size_bytes * (2 / 5)
      + score_device_for_compute p.2 * (3 / 5))
  let ids := select_devices candidates scores sch.replication_factor
  let total := (((candidates.zip scores).filter
    (fun p => decide (p.1 ∈ ids))).map Prod.snd).sum
  { chunk_hash := shard_id, device_ids := ids,
    score := if ids = [] then 0 else total / (ids.length : ℚ) }

/-- Membership in `select_devices` output implies a positive score in the
candidate/score table. -/
theorem mem_select_devices {candidates : List String} {scores : List ℚ}
    {count : Int} {d : String} (h : d ∈ select_devices candidates scores count) :
    ∃ s, (d, s) ∈ candidates.zip scores ∧ 0 < s := by
  unfold select_devices at h
  have h1 : d ∈ (sortPairsDesc
      ((candidates.zip scores).filter (fun p => decide (0 < p.2)))).map Prod.fst :=
    List.take_subset _ _ h
  obtain ⟨p, hp, rfl⟩ := List.mem_map.mp h1
  have hp' : p ∈ (candidates.zip scores).filter (fun p => decide (0 < p.2)) :=
    (List.perm_insertionSort _ _).subset hp
  have hmem := List.mem_of_mem_filter hp'
  have hpos : 0 < p.2 := by simpa using List.of_mem_filter hp'
  exact ⟨p.2, hmem, hpos⟩

/-- Unique keys give unique values in an association list. -/
theorem assoc_nodup_unique {l : List (String × Telemetry)}
    (hnodup : (l.map Prod.fst).Nodup) {d : String} {a b : Telemetry}
    (ha : (d, a) ∈ l) (hb : (d, b) ∈ l) : a = b := by
  induction l with
  | nil => cases ha
  | cons x xs ih =>
    have hx := List.nodup_cons.mp hnodup
    rcases List.mem_cons.mp ha with rfl | ha' <;>
      rcases List.mem_cons.mp hb with hb' | hb'
    · exact (congrArg Prod.snd hb'.symm)
    · exact absurd (List.mem_map.mpr ⟨(d, b), hb', rfl⟩) hx.1
    · obtain rfl := hb'
      exact absurd (List.mem_map.mpr ⟨(d, a), ha', rfl⟩) hx.1
    · exact ih hx.2 ha' hb'

/-- C2 (amended): with `required_mb` the C++ floor division
`size / 2^20`, a registered device with `available_storage_mb < required_mb`
has storage score 0 and never appears in any placement produced by
`place_chunks` for that size. (`place_shard` is intentionally excluded:
it blends in the compute score, so a capacity-gated device can still be
placed there.) -/
theorem capacity_gate_floor_excludes (sch : State) (size : Nat) (d : String)
    (t : Telemetry) (hashes : List String)
    (hmem : (d, t) ∈ sch.devices)
    (hnodup : (sch.devices.map Prod.fst).Nodup)
    (hgate : t.available_storage_mb < size / (1024 * 1024)) :
    score_device_for_storage t size = 0 ∧
    ∀ p ∈ place_chunks sch hashes size, d ∉ p.device_ids := by
  have hscore : score_device_for_storage t size = 0 := by
    unfold score_device_for_storage
    simp [hgate]
  refine ⟨hscore, ?_⟩
  intro p hp hd
  obtain ⟨h, _, rfl⟩ := List.mem_map.mp hp
  obtain ⟨s, hzip, hpos⟩ := mem_select_devices hd
  rw [List.zip_map'] at hzip
  obtain ⟨q, hq, hqe⟩ := List.mem_map.mp hzip
  have hd1 : q.1 = d := congrArg Prod.fst hqe
  have hs : s = score_device_for_storage q.2 size := (congrArg Prod.snd hqe).symm
  have hq' : (d, q.2) ∈ sch.devices := by
    rw [← hd1]
    exact hq
  have : q.2 = t := assoc_nodup_unique hnodup hq' hmem
  rw [hs, this, hscore] at hpos
  exact lt_irrefl 0 hpos

/-- The capacity-gated device of the C2 counterexample: 1 MB free. -/
def telGated : Telemetry :=
  { device_id := "d", battery_percent := 50, cpu_load_percent := 0,
    ram_usage_percent := 0, idle_percent := 100, link_quality := 1,
    available_storage_mb := 1, is_plugged_in := true, timestamp := 0 }

/-- A scheduler with replication factor 3 and the single device `d`. -/
def schedOne : State := { replication_factor := 3, devices := [("d", telGated)] }

/-- C2 counterexample. Size `2^20 + 1`: `ceil(size/2^20) = 2` exceeds the
device's 1 MB, so the claim demands score 0 and exclusion, but the floor
gate passes the device, its score is positive, and `place_chunks` places on
it. Size `3·2^20`: the device is gated even by the floor (storage score 0),
yet `place_shard` still places on it through the blended compute score. -/
theorem capacity_gate_counterexample :
    (telGated.available_storage_mb < (1048577 + (1024 * 1024) - 1) / (1024 * 1024) ∧
      score_device_for_storage telGated 1048577 ≠ 0 ∧
      (place_chunks schedOne ["h"] 1048577).map (fun p => p.device_ids) = [["d"]]) ∧
    (telGated.available_storage_mb < 3145728 / (1024 * 1024) ∧
      score_device_for_storage telGated 3145728 = 0 ∧
      (place_shard schedOne "s" 3145728).device_ids = ["d"]) := by
  refine ⟨⟨by decide, ?_, ?_⟩, by decide, ?_, ?_⟩
  · norm_num [score_device_for_storage, telGated]
  · norm_num [place_chunks, select_devices, sortPairsDesc, score_device_for_storage,
      telGated, schedOne, lookupTel, List.insertionSort, List.orderedInsert]
  · norm_num [score_device_for_storage, telGated]
  · norm_num [place_shard, select_devices, sortPairsDesc, score_device_for_storage,
      score_device_for_compute, compute_score, telGated, schedOne,
      List.insertionSort, List.orderedInsert]

/-- A viable companion device for the C2 witness. -/
def telBig : Telemetry :=
  { device_id := "e", battery_percent := 50, cpu_load_percent := 10,
    ram_usage_percent := 10, idle_percent := 90, link_quality := 1,
    available_storage_mb := 10000, is_plugged_in := true, timestamp := 0 }

/-- Scheduler with a gated and a viable device, for the C2 witness. -/
def schedTwo : State :=
  { replication_factor := 3, devices := [("d", telGated), ("e", telBig)] }

/-- Witness for the amended C2 theorem at a concrete scheduler and size. -/
theorem capacity_gate_floor_excludes_witness :
    score_device_for_storage telGated 3145728 = 0 ∧
    ∀ p ∈ place_chunks schedTwo ["h1"] 3145728, "d" ∉ p.device_ids :=
  capacity_gate_floor_excludes schedTwo 3145728 "d" telGated ["h1"]
    (by decide) (by decide) (by decide)

end Scheduler

namespace ChunkStore

/-- The external primitives `ChunkStore.cpp` calls into, kept abstract:
* `hashFn` — `compute_hash`, i.e. hex SHA-256 of a byte vector;
* `compress` — `ZSTD_compress` at level 3 (with a `ZSTD_compressBound`
  buffer this does not fail on valid input);
* `decompress` — `ZSTD_decompress` into an `original_size` buffer; `none`
  is the `ZSTD_isError` throw;
* `deriveKey` — `PKCS5_PBKDF2_HMAC` (SHA-256, 100000 iterations, 32-byte
  output) over `content_id` and a salt;
* `aesEnc` — `aes_gcm_encrypt` of a plaintext with a key and a 12-byte IV,
  returning ciphertext and 16-byte tag;
* `aesDec` — `aes_gcm_decrypt` of a ciphertext with key, IV and tag;
  `none` is the `EVP_DecryptFinal_ex` tag-verification failure. -/
structure Prims where
  hashFn : List Nat → String
  compress : List Nat → List Nat
  decompress : List Nat → Nat → Option (List Nat)
  deriveKey : String → List Nat → List Nat
  aesEnc : List Nat → List Nat → List Nat → List Nat × List Nat
  aesDec : List Nat → List Nat → List Nat → List Nat → Option (List Nat)

/-- `Chunk` from `include/ChunkStore.hpp` (`iv`/`tag` are the empty vector
when not encrypted). -/
structure Chunk where
  hash : String
  data : List Nat
  iv : List Nat
  tag : List Nat
  original_size : Nat
  index : Nat
  is_encrypted : Bool
deriving DecidableEq

/-- The `ChunkStore`'s state: `chunk_size_`, the in-memory `chunks_` and
`content_map_`, and the RocksDB contents. The packed little-endian chunk
record of `persist_chunk`/`load_chunk` is a lossless serialization of the
chunk's fields, so the database is modelled with the record itself under the
`"chunk:" ++ hash` key; `"content_map:" ++ id` keys hold the literal
semicolon-joined string value. -/
structure Store where
  chunk_size : Nat
  chunks : String → Option Chunk
  content_map : String → Option (List String)
  dbChunks : String → Option Chunk
  dbContent : String → Option String

/-- The slicing loop of `ChunkStore::store`:
`data[offset : offset + min(chunk_size, remaining)]` for
`offset = 0, k, 2k, …`. For `chunk_size = 0` the C++ loop does not
terminate; the model returns `[]` there and every result below assumes
`0 < chunk_size`. -/
def chunkSlices (k : Nat) (data : List Nat) : List (List Nat) :=
  if h : k = 0 ∨ data = [] then []
  else data.take k :: chunkSlices k (data.drop k)
termination_by data.length
decreasing_by
  push_neg at h
  have h1 : data.length ≠ 0 := fun hl => h.2 (List.eq_nil_of_length_eq_zero hl)
  simp only [List.length_drop]
  omega

/-- One iteration of the `store` loop: compress, optionally AES-GCM encrypt
with the fresh IV, and hash the on-disk bytes. -/
def mkChunk (P : Prims) (encrypt : Bool) (key : List Nat) (iv : List Nat)
    (i : Nat) (slice : List Nat) : Chunk :=
  let compressed := P.compress slice
  let dit : List Nat × List Nat × List Nat :=
    if encrypt then
      ((P.aesEnc compressed key iv).1, iv, (P.aesEnc compressed key iv).2)
    else (compressed, [], [])
  { hash := P.hashFn dit.1, data := dit.1, iv := dit.2.1, tag := dit.2.2,
    original_size := slice.length, index := i, is_encrypted := encrypt }

/-- The chunk records built by the `store` loop, in order; `ivs i` is the
random 12-byte IV drawn inside `aes_gcm_encrypt` for the `i`-th chunk. -/
def buildChunks (P : Prims) (encrypt : Bool) (key : List Nat)
    (ivs : Nat → List Nat) : Nat → List (List Nat) → List Chunk
  | _, [] => []
  | i, s :: rest =>
    mkChunk P encrypt key (ivs i) i s :: buildChunks P encrypt key ivs (i + 1) rest

/-- The `mapping_value += hash + ";"` serialization of the content map. -/
def joinSemi (hs : List String) : String :=
  hs.foldl (fun acc h => acc ++ h ++ ";") ""

/-- The `std::getline(ss, hash, ';')` parse discarding empty tokens. -/
def parseHashes (v : String) : List String :=
  (v.splitOn ";").filter (fun h => h ≠ "")

/-- `ChunkStore::store`. `salt` is the fresh 32-byte random salt drawn at
the top of the call (the key is derived from it whether or not `encrypt`
is set), and `ivs` the per-chunk random IVs. -/
def store (P : Prims) (st : Store) (data : List Nat) (content_id : String)
    (encrypt : Bool) (salt : List Nat) (ivs : Nat → List Nat) :
    List String × Store :=
  let key := P.deriveKey content_id salt
  let cs := buildChunks P encrypt key ivs 0 (chunkSlices st.chunk_size data)
  let chunk_hashes := cs.map (fun c => c.hash)
  (chunk_hashes,
   { st with
     chunks := cs.foldl (fun m c => mapPut m c.hash c) st.chunks,
     dbChunks := cs.foldl (fun m c => mapPut m ("chunk:" ++ c.hash) c) st.dbChunks,
     content_map := mapPut st.content_map content_id chunk_hashes,
     dbContent := mapPut st.dbContent ("content_map:" ++ content_id)
       (joinSemi chunk_hashes) })

/-- `ChunkStore::get_chunk`. -/
def get_chunk (st : Store) (h : String) : Option Chunk :=
  st.chunks h

/-- `ChunkStore::load_chunk` (the record's `hash` field is set from the
requested key). -/
def load_chunk (st : Store) (h : String) : Option Chunk :=
  (st.dbChunks ("chunk:" ++ h)).map (fun c => { c with hash := h })

/-- The per-hash resolution of `retrieve`: memory first, then disk. -/
def lookupChunk (st : Store) (h : String) : Option Chunk :=
  match get_chunk st h with
  | some c => some c
  | none => load_chunk st h

/-- The content-map resolution of `retrieve`: memory first, then parse the
persisted semicolon-joined value. -/
def resolveHashes (st : Store) (cid : String) : Option (List String) :=
  match st.content_map cid with
  | some hs => some hs
  | none =>
    match st.dbContent ("content_map:" ++ cid) with
    | some v => some (parseHashes v)
    | none => none

/-- The per-hash loop of `retrieve`: fetch, decrypt when flagged,
decompress to `original_size`, concatenate. (The cache fills the loop
performs on disk hits do not change the returned bytes and are not
modelled.) -/
def retrieveLoop (P : Prims) (st : Store) (key : List Nat) :
    List String → Except String (List Nat)
  | [] => Except.ok []
  | h :: rest =>
    match lookupChunk st h with
    | none => Except.error ("Chunk not found: " ++ h)
    | some c =>
      match (if c.is_encrypted then
               match P.aesDec c.data key c.iv c.tag with
               | some pt => Except.ok pt
               | none =>
                 Except.error "Authentication failed - data may be corrupted"
             else Except.ok c.data : Except String (List Nat)) with
      | Except.error e => Except.error e
      | Except.ok d =>
        match P.decompress d c.original_size with
        | none => Except.error "Decompression failed"
        | some dec =>
          match retrieveLoop P st key rest with
          | Except.error e => Except.error e
          | Except.ok tailBytes => Except.ok (dec ++ tailBytes)

/-- `ChunkStore::retrieve`. `salt` is the fresh 32-byte random salt the
call draws to re-derive the key. -/
def retrieve (P : Prims) (st : Store) (content_id : String) (salt : List Nat) :
    Except String (List Nat) :=
  match resolveHashes st content_id with
  | none => Except.error ("Content not found: " ++ content_id)
  | some hs => retrieveLoop P st (P.deriveKey content_id salt) hs

/-- `ChunkStore::list_chunks`. -/
def list_chunks (st : Store) (cid : String) : List String :=
  (st.content_map cid).getD []

theorem chunkSlices_nil (k : Nat) : chunkSlices k [] = [] := by
  rw [chunkSlices]
  simp

theorem chunkSlices_cons {k : Nat} {data : List Nat} (hk : k ≠ 0) (hd : data ≠ []) :
    chunkSlices k data = data.take k :: chunkSlices k (data.drop k) := by
  rw [chunkSlices]
  simp [hk, hd]

theorem chunkSlices_eq_nil_iff {k : Nat} {data : List Nat} (hk : k ≠ 0) :
    chunkSlices k data = [] ↔ data = [] := by
  constructor
  · intro h
    by_contra hd
    rw [chunkSlices_cons hk hd] at h
    cases h
  · intro h
    subst h
    exact chunkSlices_nil k

/-- The number of slices is `⌈L/k⌉`, written `(L + k - 1) / k`. -/
theorem chunkSlices_length {k : Nat} (hk : 0 < k) :
    ∀ (n : Nat) (data : List Nat), data.length ≤ n →
      (chunkSlices k data).length = (data.length + k - 1) / k := by
  intro n
  induction n with
  | zero =>
    intro data hd
    have hnil : data = [] := List.eq_nil_of_length_eq_zero (Nat.le_zero.mp hd)
    subst hnil
    simp only [chunkSlices_nil, List.length_nil]
    rw [Nat.div_eq_of_lt (by omega)]
  | succ n ih =>
    intro data hd
    by_cases hnil : data = []
    · subst hnil
      simp only [chunkSlices_nil, List.length_nil]
      rw [Nat.div_eq_of_lt (by omega)]
    · have hL : 1 ≤ data.length := List.length_pos.mpr hnil
      rw [chunkSlices_cons hk.ne' hnil]
      simp only [List.length_cons]
      rw [ih (data.drop k) (by simp [List.length_drop]; omega)]
      rw [List.length_drop]
      rw [show data.length + k - 1 = (data.length - 1) + k by omega,
        Nat.add_div_right _ hk]
      rcases le_or_lt k data.length with hge | hlt
      · rw [show data.length - k + k - 1 = data.length - 1 by omega]
      · rw [show data.length - k = 0 by omega]
        rw [Nat.div_eq_of_lt (by omega), Nat.div_eq_of_lt (by omega)]

/-- The slices concatenate back to the payload. -/
theorem chunkSlices_join {k : Nat} (hk : 0 < k) :
    ∀ (n : Nat) (data : List Nat), data.length ≤ n →
      (chunkSlices k data).flatten = data := by
  intro n
  induction n with
  | zero =>
    intro data hd
    have hnil : data = [] := List.eq_nil_of_length_eq_zero (Nat.le_zero.mp hd)
    subst hnil
    simp [chunkSlices_nil]
  | succ n ih =>
    intro data hd
    by_cases hnil : data = []
    · subst hnil
      simp [chunkSlices_nil]
    · have hL : 1 ≤ data.length := List.length_pos.mpr hnil
      rw [chunkSlices_cons hk.ne' hnil, List.flatten_cons,
        ih (data.drop k) (by simp [List.length_drop]; omega),
        List.take_append_drop]

/-- Every slice except the last has length exactly `k`. -/
theorem chunkSlices_sizes {k : Nat} (hk : 0 < k) :
    ∀ (n : Nat) (data : List Nat), data.length ≤ n →
      ∀ s ∈ (chunkSlices k data).dropLast, s.length = k := by
  intro n
  induction n with
  | zero =>
    intro data hd
    have hnil : data = [] := List.eq_nil_of_length_eq_zero (Nat.le_zero.mp hd)
    subst hnil
    simp [chunkSlices_nil]
  | succ n ih =>
    intro data hd s hs
    by_cases hnil : data = []
    · subst hnil
      simp [chunkSlices_nil] at hs
    · have hL : 1 ≤ data.length := List.length_pos.mpr hnil
      rw [chunkSlices_cons hk.ne' hnil] at hs
      by_cases hrest : chunkSlices k (data.drop k) = []
      · rw [hrest] at hs
        simp at hs
      · have hdrop : data.drop k ≠ [] := by
          intro hdn
          exact hrest (by rw [hdn]; exact chunkSlices_nil k)
        have hklt : k < data.length := by
          by_contra hcon
          exact hdrop (List.drop_eq_nil_of_le (by omega))
        rw [List.dropLast_cons_of_ne_nil hrest] at hs
        rcases List.mem_cons.mp hs with rfl | hs'
        · simp [List.length_take]
          omega
        · exact ih (data.drop k) (by simp [List.length_drop]; omega) s hs'

/-- The last slice has length `L mod k`, or `k` when `k` divides `L`. -/
theorem chunkSlices_last {k : Nat} (hk : 0 < k) :
    ∀ (n : Nat) (data : List Nat), data.length ≤ n → data ≠ [] →
      ∀ s, (chunkSlices k data).getLast? = some s →
        s.length = if data.length % k = 0 then k else data.length % k := by
  intro n
  induction n with
  | zero =>
    intro data hd hnil
    exact absurd (List.eq_nil_of_length_eq_zero (Nat.le_zero.mp hd)) hnil
  | succ n ih =>
    intro data hd hnil s hs
    have hL : 1 ≤ data.length := List.length_pos.mpr hnil
    rw [chunkSlices_cons hk.ne' hnil] at hs
    by_cases hrest : chunkSlices k (data.drop k) = []
    · rw [hrest] at hs
      simp only [List.getLast?_singleton, Option.some.injEq] at hs
      subst hs
      have hle : data.length ≤ k := by
        have hdn : data.drop k = [] := (chunkSlices_eq_nil_iff hk.ne').mp hrest
        exact List.drop_eq_nil_iff.mp hdn
      simp only [List.length_take]
      rcases Nat.lt_or_ge data.length k with hlt | hge
      · rw [Nat.mod_eq_of_lt hlt, if_neg (by omega)]
        omega
      · have hke : data.length = k := le_antisymm hle hge
        rw [hke]
        simp
    · obtain ⟨y, ys, hys⟩ := List.exists_cons_of_ne_nil hrest
      rw [hys, List.getLast?_cons_cons] at hs
      rw [← hys] at hs
      have hdrop : data.drop k ≠ [] := by
        intro hdn
        exact hrest (by rw [hdn]; exact chunkSlices_nil k)
      have hklt : k < data.length := by
        by_contra hcon
        exact hdrop (List.drop_eq_nil_of_le (by omega))
      have := ih (data.drop k) (by simp [List.length_drop]; omega) hdrop s hs
      rw [List.length_drop] at this
      rw [this]
      have hmod : (data.length - k) % k = data.length % k := by
        conv_rhs => rw [show data.length = (data.length - k) + k by omega]
        rw [Nat.add_mod_right]
      rw [hmod]

/-- `buildChunks` records each slice's length as `original_size`, in
order. -/
theorem buildChunks_osizes (P : Prims) (encrypt : Bool) (key : List Nat)
    (ivs : Nat → List Nat) :
    ∀ (i : Nat) (slices : List (List Nat)),
      (buildChunks P encrypt key ivs i slices).map (fun c => c.original_size) =
        slices.map (fun s => s.length) := by
  intro i slices
  induction slices generalizing i with
  | nil => rfl
  | cons s rest ih =>
    simp only [buildChunks, List.map_cons, ih]
    rfl

theorem buildChunks_length (P : Prims) (encrypt : Bool) (key : List Nat)
    (ivs : Nat → List Nat) :
    ∀ (i : Nat) (slices : List (List Nat)),
      (buildChunks P encrypt key ivs i slices).length = slices.length := by
  intro i slices
  induction slices generalizing i with
  | nil => rfl
  | cons s rest ih => simp [buildChunks, ih]

/-- C9: for a payload of length `L` stored with `chunk_size = k > 0`,
`store` returns exactly `⌈L/k⌉` chunk hashes; every chunk record except the
last has `original_size = k`, and the last has `original_size = L mod k`
(or `k` when `k` divides `L`). -/
theorem store_chunk_boundaries (P : Prims) (st : Store) (data : List Nat)
    (cid : String) (encrypt : Bool) (salt : List Nat) (ivs : Nat → List Nat)
    (hk : 0 < st.chunk_size) :
    (store P st data cid encrypt salt ivs).1.length =
      (data.length + st.chunk_size - 1) / st.chunk_size ∧
    (∀ c ∈ (buildChunks P encrypt (P.deriveKey cid salt) ivs 0
        (chunkSlices st.chunk_size data)).dropLast,
      c.original_size = st.chunk_size) ∧
    (∀ c, (buildChunks P encrypt (P.deriveKey cid salt) ivs 0
        (chunkSlices st.chunk_size data)).getLast? = some c →
      c.original_size = if data.length % st.chunk_size = 0
        then st.chunk_size else data.length % st.chunk_size) := by
  refine ⟨?_, ?_, ?_⟩
  · show ((buildChunks P encrypt (P.deriveKey cid salt) ivs 0
        (chunkSlices st.chunk_size data)).map (fun c => c.hash)).length = _
    rw [List.length_map, buildChunks_length,
      chunkSlices_length hk data.length data le_rfl]
  · intro c hc
    have hmem : c.original_size ∈
        ((buildChunks P encrypt (P.deriveKey cid salt) ivs 0
          (chunkSlices st.chunk_size data)).dropLast).map
            (fun c => c.original_size) :=
      List.mem_map.mpr ⟨c, hc, rfl⟩
    rw [List.map_dropLast, buildChunks_osizes, ← List.map_dropLast] at hmem
    obtain ⟨s, hs, hlen⟩ := List.mem_map.mp hmem
    rw [← hlen]
    exact chunkSlices_sizes hk data.length data le_rfl s hs
  · intro c hc
    by_cases hnil : data = []
    · subst hnil
      rw [chunkSlices_nil] at hc
      cases hc
    · have hmap : ((buildChunks P encrypt (P.deriveKey cid salt) ivs 0
          (chunkSlices st.chunk_size data)).map (fun c => c.original_size)).getLast?
            = some c.original_size := by
        rw [List.getLast?_map, hc]
        rfl
      rw [buildChunks_osizes, List.getLast?_map] at hmap
      obtain ⟨s, hs, hlen⟩ : ∃ s, (chunkSlices st.chunk_size data).getLast? = some s
          ∧ s.length = c.original_size := by
        cases hgl : (chunkSlices st.chunk_size data).getLast? with
        | none => rw [hgl] at hmap; cases hmap
        | some s =>
          rw [hgl] at hmap
          exact ⟨s, rfl, by simpa using hmap⟩
      rw [← hlen]
      exact chunkSlices_last hk data.length data le_rfl hnil s hs

/-- A fresh `ChunkStore`-state with chunk size 64 over an empty database
(scenario S1's chunk size). -/
def store64 : Store :=
  { chunk_size := 64, chunks := fun _ => none, content_map := fun _ => none,
    dbChunks := fun _ => none, dbContent := fun _ => none }

/-- Unencrypted chunks carry `data = compress slice` and hash
`hashFn (compress slice)`. -/
theorem buildChunks_hashes_unencrypted (P : Prims) (key : List Nat)
    (ivs : Nat → List Nat) :
    ∀ (i : Nat) (slices : List (List Nat)),
      (buildChunks P false key ivs i slices).map (fun c => c.hash) =
        slices.map (fun s => P.hashFn (P.compress s)) := by
  intro i slices
  induction slices generalizing i with
  | nil => rfl
  | cons s rest ih =>
    simp only [buildChunks, List.map_cons, ih]
    rfl

/-- C4: with `encrypt = false` the hash sequence returned by `store` does
not depend on the random salt, the derived key, the random IVs, or the
prior store state — two calls on payload `P` and `content_id` `C` with the
same chunk size return identical hash lists. -/
theorem store_hashes_deterministic (P : Prims) (st1 st2 : Store)
    (data : List Nat) (cid1 cid2 : String) (salt1 salt2 : List Nat)
    (ivs1 ivs2 : Nat → List Nat) (hsize : st1.chunk_size = st2.chunk_size) :
    (store P st1 data cid1 false salt1 ivs1).1 =
      (store P st2 data cid2 false salt2 ivs2).1 := by
  have h1 : (store P st1 data cid1 false salt1 ivs1).1 =
      (chunkSlices st1.chunk_size data).map (fun s => P.hashFn (P.compress s)) :=
    buildChunks_hashes_unencrypted P (P.deriveKey cid1 salt1) ivs1 0 _
  have h2 : (store P st2 data cid2 false salt2 ivs2).1 =
      (chunkSlices st2.chunk_size data).map (fun s => P.hashFn (P.compress s)) :=
    buildChunks_hashes_unencrypted P (P.deriveKey cid2 salt2) ivs2 0 _
  rw [h1, h2, hsize]

/-- C10: storing an empty payload returns an empty hash list, records the
content id with an empty chunk list in the content mapping, and a
subsequent `retrieve` on the same store succeeds with the empty payload
instead of failing with the not-found error. -/
theorem store_empty_retrieve_ok (P : Prims) (st : Store) (cid : String)
    (encrypt : Bool) (salt : List Nat) (ivs : Nat → List Nat)
    (salt' : List Nat) :
    (store P st [] cid encrypt salt ivs).1 = [] ∧
    (store P st [] cid encrypt salt ivs).2.content_map cid = some [] ∧
    retrieve P ((store P st [] cid encrypt salt ivs).2) cid salt' =
      Except.ok [] := by
  refine ⟨?_, ?_, ?_⟩
  · simp [store, chunkSlices_nil, buildChunks]
  · simp [store, chunkSlices_nil, buildChunks, mapPut]
  · simp [retrieve, resolveHashes, store, chunkSlices_nil, buildChunks,
      mapPut, retrieveLoop]

/-- Looking a hash up in the memory table after the `store` loop's
insertions: either some inserted chunk with that hash is found, or no
inserted chunk has the hash and the prior table answers. -/
theorem foldl_mapPut_lookup (cs : List Chunk) (m : String → Option Chunk)
    (h : String) :
    (∃ c, (cs.foldl (fun m c => mapPut m c.hash c) m) h = some c ∧
      c ∈ cs ∧ c.hash = h) ∨
    ((∀ c ∈ cs, c.hash ≠ h) ∧
      (cs.foldl (fun m c => mapPut m c.hash c) m) h = m h) := by
  induction cs generalizing m with
  | nil => exact .inr ⟨by simp, rfl⟩
  | cons c tl ih =>
    rcases ih (mapPut m c.hash c) with ⟨c', hc', hmem, hh⟩ | ⟨hnone, heq⟩
    · exact .inl ⟨c', hc', List.mem_cons_of_mem _ hmem, hh⟩
    · by_cases hch : c.hash = h
      · refine .inl ⟨c, ?_, List.mem_cons_self _ _, hch⟩
        rw [List.foldl_cons, heq, ← hch]
        exact mapPut_same _ _ _
      · refine .inr ⟨?_, ?_⟩
        · intro c' hc'
          rcases List.mem_cons.mp hc' with rfl | hmem
          · exact hch
          · exact hnone c' hmem
        · rw [List.foldl_cons, heq]
          exact mapPut_other _ _ _ _ (fun hcon => hch hcon.symm)

/-- Every chunk the `store` loop builds is `mkChunk` of one of the slices. -/
theorem mem_buildChunks (P : Prims) (encrypt : Bool) (key : List Nat)
    (ivs : Nat → List Nat) :
    ∀ (i : Nat) (slices : List (List Nat)) (c : Chunk),
      c ∈ buildChunks P encrypt key ivs i slices →
      ∃ j s, s ∈ slices ∧ c = mkChunk P encrypt key (ivs j) j s := by
  intro i slices
  induction slices generalizing i with
  | nil => intro c hc; cases hc
  | cons s rest ih =>
    intro c hc
    rcases List.mem_cons.mp hc with rfl | hmem
    · exact ⟨i, s, List.mem_cons_self _ _, rfl⟩
    · obtain ⟨j, s', hs', hc'⟩ := ih (i + 1) c hmem
      exact ⟨j, s', List.mem_cons_of_mem _ hs', hc'⟩

/-- Conversely, each slice has its chunk in the built list. -/
theorem buildChunks_mem_of_slice (P : Prims) (encrypt : Bool) (key : List Nat)
    (ivs : Nat → List Nat) :
    ∀ (i : Nat) (slices : List (List Nat)) (s : List Nat), s ∈ slices →
      ∃ j, mkChunk P encrypt key (ivs j) j s ∈ buildChunks P encrypt key ivs i slices := by
  intro i slices
  induction slices generalizing i with
  | nil => intro s hs; cases hs
  | cons s0 rest ih =>
    intro s hs
    rcases List.mem_cons.mp hs with rfl | hmem
    · exact ⟨i, List.mem_cons_self _ _⟩
    · obtain ⟨j, hj⟩ := ih (i + 1) s hmem
      exact ⟨j, List.mem_cons_of_mem _ hj⟩

theorem mkChunk_false (P : Prims) (key iv : List Nat) (i : Nat) (s : List Nat) :
    mkChunk P false key iv i s =
      { hash := P.hashFn (P.compress s), data := P.compress s, iv := [],
        tag := [], original_size := s.length, index := i,
        is_encrypted := false } := rfl

theorem mkChunk_true (P : Prims) (key iv : List Nat) (i : Nat) (s : List Nat) :
    mkChunk P true key iv i s =
      { hash := P.hashFn (P.aesEnc (P.compress s) key iv).1,
        data := (P.aesEnc (P.compress s) key iv).1, iv := iv,
        tag := (P.aesEnc (P.compress s) key iv).2,
        original_size := s.length, index := i, is_encrypted := true } := rfl

/-- The retrieval loop succeeds slice by slice when every hash resolves to
an unencrypted chunk that decompresses back to its slice. -/
theorem retrieveLoop_ok (P : Prims) (st : Store) (key : List Nat) :
    ∀ (ps : List (List Nat)),
      (∀ p ∈ ps, ∃ c, lookupChunk st (P.hashFn (P.compress p)) = some c ∧
        c.is_encrypted = false ∧ P.decompress c.data c.original_size = some p) →
      retrieveLoop P st key (ps.map (fun p => P.hashFn (P.compress p))) =
        Except.ok ps.flatten := by
  intro ps
  induction ps with
  | nil => intro _; rfl
  | cons p tl ih =>
    intro hall
    obtain ⟨c, hlk, henc, hdec⟩ := hall p (List.mem_cons_self _ _)
    have htl := ih (fun q hq => hall q (List.mem_cons_of_mem _ hq))
    simp only [List.map_cons, retrieveLoop, hlk, henc, Bool.false_eq_true,
      if_false, hdec, htl, List.flatten_cons]

/-- C3: `store(P, C, false)` followed by `retrieve(C)` on the same
`ChunkStore` returns `P` byte-for-byte, assuming the zstd contract
(decompressing a compressed buffer at its original size returns the
original bytes) and SHA-256 collision-freedom on the compressed chunks. -/
theorem store_retrieve_roundtrip_unencrypted (P : Prims) (st : Store)
    (data : List Nat) (cid : String) (salt : List Nat) (ivs : Nat → List Nat)
    (salt' : List Nat)
    (hk : 0 < st.chunk_size)
    (hcodec : ∀ p : List Nat, P.decompress (P.compress p) p.length = some p)
    (hinj : ∀ p q : List Nat,
      P.hashFn (P.compress p) = P.hashFn (P.compress q) → p = q) :
    retrieve P ((store P st data cid false salt ivs).2) cid salt' =
      Except.ok data := by
  have hhashes : (store P st data cid false salt ivs).1 =
      (chunkSlices st.chunk_size data).map (fun s => P.hashFn (P.compress s)) :=
    buildChunks_hashes_unencrypted P (P.deriveKey cid salt) ivs 0 _
  have hcm : ((store P st data cid false salt ivs).2).content_map cid =
      some ((store P st data cid false salt ivs).1) := mapPut_same _ _ _
  have hres : resolveHashes ((store P st data cid false salt ivs).2) cid =
      some ((store P st data cid false salt ivs).1) := by
    unfold resolveHashes
    rw [hcm]
  rw [retrieve, hres, hhashes]
  have hall : ∀ p ∈ chunkSlices st.chunk_size data,
      ∃ c, lookupChunk ((store P st data cid false salt ivs).2)
          (P.hashFn (P.compress p)) = some c ∧
        c.is_encrypted = false ∧ P.decompress c.data c.original_size = some p := by
    intro p hp
    obtain ⟨j, hj⟩ := buildChunks_mem_of_slice P false (P.deriveKey cid salt)
      ivs 0 (chunkSlices st.chunk_size data) p hp
    rcases foldl_mapPut_lookup
        (buildChunks P false (P.deriveKey cid salt) ivs 0
          (chunkSlices st.chunk_size data)) st.chunks
        (P.hashFn (P.compress p)) with ⟨c, hc, hcm', hch⟩ | ⟨hnone, _⟩
    · obtain ⟨j', q, hq, hcq⟩ := mem_buildChunks P false (P.deriveKey cid salt)
        ivs 0 _ c hcm'
      have hdataq : c.data = P.compress q := by rw [hcq, mkChunk_false]
      have hosize : c.original_size = q.length := by rw [hcq, mkChunk_false]
      have hencq : c.is_encrypted = false := by rw [hcq, mkChunk_false]
      have hhq : P.hashFn (P.compress q) = P.hashFn (P.compress p) := by
        rw [← hch, hcq, mkChunk_false]
      have hqp : q = p := hinj q p hhq
      refine ⟨c, ?_, hencq, ?_⟩
      · show lookupChunk _ _ = some c
        unfold lookupChunk get_chunk
        show (match ((store P st data cid false salt ivs).2).chunks
            (P.hashFn (P.compress p)) with
          | some c => some c
          | none => load_chunk _ _) = some c
        have : ((store P st data cid false salt ivs).2).chunks
            (P.hashFn (P.compress p)) = some c := hc
        rw [this]
      · rw [hdataq, hosize, hqp]
        exact hcodec p
    · have hrfl : (mkChunk P false (P.deriveKey cid salt) (ivs j) j p).hash =
          P.hashFn (P.compress p) := by rw [mkChunk_false]
      exact absurd hrfl (hnone _ hj)
  show retrieveLoop P (store P st data cid false salt ivs).2
      (P.deriveKey cid salt')
      ((chunkSlices st.chunk_size data).map fun p => P.hashFn (P.compress p)) =
    Except.ok data
  rw [retrieveLoop_ok P _ _ _ hall,
    chunkSlices_join hk data.length data le_rfl]

/-- C1 (the code as shipped): `retrieve` derives its AES key from a fresh
random salt, so with `encrypt = true` and a non-empty payload the GCM tag
check fails on the first chunk and `retrieve` throws instead of returning
the payload — assuming only that the two independently drawn salts derive
different keys and that AES-GCM authentication rejects a wrong key. -/
theorem encrypted_retrieve_auth_fails (P : Prims) (st : Store)
    (data : List Nat) (cid : String) (salt : List Nat) (ivs : Nat → List Nat)
    (salt' : List Nat)
    (hk : 0 < st.chunk_size) (hdata : data ≠ [])
    (hkey : P.deriveKey cid salt' ≠ P.deriveKey cid salt)
    (hauth : ∀ (pt kk kk' iv : List Nat), kk' ≠ kk →
      P.aesDec (P.aesEnc pt kk iv).1 kk' iv (P.aesEnc pt kk iv).2 = none) :
    retrieve P ((store P st data cid true salt ivs).2) cid salt' =
      Except.error "Authentication failed - data may be corrupted" := by
  have hcm : ((store P st data cid true salt ivs).2).content_map cid =
      some ((store P st data cid true salt ivs).1) := mapPut_same _ _ _
  have hres : resolveHashes ((store P st data cid true salt ivs).2) cid =
      some ((store P st data cid true salt ivs).1) := by
    unfold resolveHashes
    rw [hcm]
  rw [retrieve, hres]
  have hsl0 : chunkSlices st.chunk_size data ≠ [] :=
    fun hn => hdata ((chunkSlices_eq_nil_iff hk.ne').mp hn)
  obtain ⟨s0, srest, hs⟩ := List.exists_cons_of_ne_nil hsl0
  have hcs : (store P st data cid true salt ivs).1 =
      (mkChunk P true (P.deriveKey cid salt) (ivs 0) 0 s0).hash ::
        (buildChunks P true (P.deriveKey cid salt) ivs 1 srest).map
          (fun c => c.hash) := by
    show (buildChunks P true (P.deriveKey cid salt) ivs 0
        (chunkSlices st.chunk_size data)).map (fun c => c.hash) = _
    rw [hs]
    rfl
  rw [hcs]
  -- the head hash resolves to one of this call's (encrypted) chunks
  have hmem0 : (mkChunk P true (P.deriveKey cid salt) (ivs 0) 0 s0) ∈
      buildChunks P true (P.deriveKey cid salt) ivs 0
        (chunkSlices st.chunk_size data) := by
    rw [hs]
    exact List.mem_cons_self _ _
  rcases foldl_mapPut_lookup
      (buildChunks P true (P.deriveKey cid salt) ivs 0
        (chunkSlices st.chunk_size data)) st.chunks
      (mkChunk P true (P.deriveKey cid salt) (ivs 0) 0 s0).hash with
    ⟨c, hc, hcm', hch⟩ | ⟨hnone, _⟩
  · obtain ⟨j, q, _, hcq⟩ := mem_buildChunks P true (P.deriveKey cid salt)
      ivs 0 _ c hcm'
    have hlk : lookupChunk ((store P st data cid true salt ivs).2)
        (mkChunk P true (P.deriveKey cid salt) (ivs 0) 0 s0).hash = some c := by
      unfold lookupChunk get_chunk
      show (match ((store P st data cid true salt ivs).2).chunks
          (mkChunk P true (P.deriveKey cid salt) (ivs 0) 0 s0).hash with
        | some c => some c
        | none => load_chunk _ _) = some c
      have : ((store P st data cid true salt ivs).2).chunks
          (mkChunk P true (P.deriveKey cid salt) (ivs 0) 0 s0).hash = some c := hc
      rw [this]
    have hencq : c.is_encrypted = true := by rw [hcq, mkChunk_true]
    have hdec : P.aesDec c.data (P.deriveKey cid salt') c.iv c.tag = none := by
      rw [hcq, mkChunk_true]
      exact hauth (P.compress q) (P.deriveKey cid salt)
        (P.deriveKey cid salt') (ivs j) hkey
    show retrieveLoop P (store P st data cid true salt ivs).2
        (P.deriveKey cid salt')
        ((mkChunk P true (P.deriveKey cid salt) (ivs 0) 0 s0).hash ::
          (buildChunks P true (P.deriveKey cid salt) ivs 1 srest).map
            (fun c => c.hash)) =
      Except.error "Authentication failed - data may be corrupted"
    simp only [retrieveLoop, hlk, hencq, if_true, hdec]
  · exact absurd rfl (hnone _ hmem0)

/-- A fresh `ChunkStore`-state with the given chunk size over an empty
database. -/
def mkEmptyStore (k : Nat) : Store :=
  { chunk_size := k, chunks := fun _ => none, content_map := fun _ => none,
    dbChunks := fun _ => none, dbContent := fun _ => none }

/-- Unary prefix code for one byte, used to build a concrete injective
digest for the witnesses. -/
def encodeByte (b : Nat) : List Char :=
  List.replicate b 'a' ++ ['b']

/-- Decoder for the unary prefix code. -/
def decodeChars : List Char → Nat → List Nat
  | [], _ => []
  | c :: rest, acc =>
    if c = 'b' then acc :: decodeChars rest 0 else decodeChars rest (acc + 1)

theorem decode_encodeByte (b : Nat) (rest : List Char) (acc : Nat) :
    decodeChars (encodeByte b ++ rest) acc = (acc + b) :: decodeChars rest 0 := by
  induction b generalizing acc with
  | zero => simp [encodeByte, decodeChars]
  | succ n ih =>
    show decodeChars (('a' :: (List.replicate n 'a' ++ ['b'])) ++ rest) acc = _
    rw [List.cons_append, decodeChars]
    rw [if_neg (by decide)]
    rw [show List.replicate n 'a' ++ ['b'] ++ rest = encodeByte n ++ rest from rfl,
      ih]
    congr 1
    omega

theorem decode_encode (l : List Nat) (rest : List Char) :
    decodeChars ((l.map encodeByte).flatten ++ rest) 0 = l ++ decodeChars rest 0 := by
  induction l with
  | nil => simp
  | cons b tl ih =>
    rw [List.map_cons, List.flatten_cons, List.append_assoc, decode_encodeByte,
      ih, Nat.zero_add, List.cons_append]

theorem encodeL_inj {p q : List Nat}
    (h : (p.map encodeByte).flatten = (q.map encodeByte).flatten) : p = q := by
  have hp := decode_encode p []
  have hq := decode_encode q []
  rw [h] at hp
  simp only [List.append_nil, decodeChars] at hp hq
  rw [hp] at hq
  exact hq

/-- A concrete injective digest: the unary-encoded byte list as a string. -/
def injHash (p : List Nat) : String :=
  String.mk ((p.map encodeByte).flatten)

theorem injHash_inj (p q : List Nat) (h : injHash p = injHash q) : p = q :=
  encodeL_inj (congrArg String.data h)

/-- A concrete `Prims` instantiation satisfying the codec and crypto
contracts: identity compression, the injective unary digest, the salt as
derived key, and a cipher whose tag carries the key so authentication
rejects exactly a wrong key. -/
def injPrims : Prims :=
  { hashFn := injHash,
    compress := fun p => p,
    decompress := fun d _ => some d,
    deriveKey := fun _ saltArg => saltArg,
    aesEnc := fun pt kk _ => (pt, kk),
    aesDec := fun ct kk _ tg => if kk = tg then some ct else none }

/-- Witness for the C3 round-trip theorem at a concrete store call. -/
theorem store_retrieve_roundtrip_unencrypted_witness :
    retrieve injPrims
        ((store injPrims (mkEmptyStore 2) [1, 2, 3] "doc" false [0]
          (fun _ => [])).2) "doc" [9] =
      Except.ok [1, 2, 3] :=
  store_retrieve_roundtrip_unencrypted injPrims (mkEmptyStore 2) [1, 2, 3]
    "doc" [0] (fun _ => []) [9] (by decide) (fun _ => rfl)
    (fun p q h => injHash_inj p q h)

/-- Witness for the C1 failure theorem at a concrete store call with
differing salts. -/
theorem encrypted_retrieve_auth_fails_witness :
    retrieve injPrims
        ((store injPrims (mkEmptyStore 1) [7] "c" true [0] (fun _ => [])).2)
        "c" [1] =
      Except.error "Authentication failed - data may be corrupted" :=
  encrypted_retrieve_auth_fails injPrims (mkEmptyStore 1) [7] "c" [0]
    (fun _ => []) [1] (by decide) (by decide) (by decide)
    (fun pt kk kk' iv hne => by simp [injPrims, hne])

/-- Witness for the C4 determinism theorem: two calls with different salts,
IVs and prior states. -/
theorem store_hashes_deterministic_witness :
    (store injPrims (mkEmptyStore 2) [1, 2, 3] "c" false [0] (fun _ => [])).1 =
      (store injPrims (mkEmptyStore 2) [1, 2, 3] "c" false [5]
        (fun _ => [9])).1 :=
  store_hashes_deterministic injPrims (mkEmptyStore 2) (mkEmptyStore 2)
    [1, 2, 3] "c" "c" [0] [5] (fun _ => []) (fun _ => [9]) rfl

/-- Witness for the C9 boundary theorem at scenario S1's parameters
(200-byte payload, chunk size 64). -/
theorem store_chunk_boundaries_witness :
    (store injPrims store64 (List.replicate 200 0) "doc1" false [0]
        (fun _ => [])).1.length =
      ((List.replicate 200 (0 : Nat)).length + store64.chunk_size - 1) /
        store64.chunk_size ∧
    (∀ c ∈ (buildChunks injPrims false (injPrims.deriveKey "doc1" [0])
        (fun _ => []) 0
        (chunkSlices store64.chunk_size (List.replicate 200 0))).dropLast,
      c.original_size = store64.chunk_size) ∧
    (∀ c, (buildChunks injPrims false (injPrims.deriveKey "doc1" [0])
        (fun _ => []) 0
        (chunkSlices store64.chunk_size (List.replicate 200 0))).getLast? =
          some c →
      c.original_size =
        if (List.replicate 200 (0 : Nat)).length % store64.chunk_size = 0
        then store64.chunk_size
        else (List.replicate 200 (0 : Nat)).length % store64.chunk_size) :=
  store_chunk_boundaries injPrims store64 (List.replicate 200 0) "doc1" false
    [0] (fun _ => []) (by decide)

end ChunkStore

namespace Routing

/-- `Link` from `include/Routing.hpp` (`float` fields over `ℚ`). -/
structure Link where
  from_device : String
  to_device : String
  quality : ℚ
  latency_ms : ℚ
  bandwidth_mbps : ℚ
deriving DecidableEq

/-- The `Link` default constructor. -/
def defaultLink : Link :=
  { from_device := "", to_device := "", quality := 1, latency_ms := 10,
    bandwidth_mbps := 100 }

/-- `Route` from `include/Routing.hpp`. `min_bandwidth_mbps` starts at
`+∞` in the metrics loop, modelled as `none`. -/
structure Route where
  path : List String
  total_latency_ms : ℚ
  min_bandwidth_mbps : Option ℚ
  quality_score : ℚ
deriving DecidableEq

/-- The `Route` default constructor (returned when `dest` is unreachable). -/
def defaultRoute : Route :=
  { path := [], total_latency_ms := 0, min_bandwidth_mbps := some 0,
    quality_score := 0 }

/-- The routing graph `graph_`:
`unordered_map<string, unordered_map<string, Link>>`, modelled as an
association list of association lists (map keys are unique; see `GraphWF`). -/
abbrev Graph : Type := List (String × List (String × Link))

/-- The adjacency entry of `u` (`graph_.find(u)`, empty when absent). -/
def adjOf (g : Graph) (u : String) : List (String × Link) :=
  ((g.find? (fun p => p.1 == u)).map Prod.snd).getD []

/-- `graph_[u].find(v)`. -/
def lookupEdge (g : Graph) (u v : String) : Option Link :=
  ((adjOf g u).find? (fun p => p.1 == v)).map Prod.snd

/-- `graph_[u][v]` in the metrics loop (default `Link` on a missing key —
never reached for the reconstructed path). -/
def linkOf (g : Graph) (u v : String) : Link :=
  (lookupEdge g u v).getD defaultLink

/-- The Dijkstra edge cost `link.latency_ms + (1.0f - link.quality) * 50.0f`. -/
def ecost (l : Link) : ℚ :=
  l.latency_ms + (1 - l.quality) * 50

/-- Map-key uniqueness of `graph_` and of each adjacency map. -/
def GraphWF (g : Graph) : Prop :=
  (g.map Prod.fst).Nodup ∧ ∀ p ∈ g, (p.2.map Prod.fst).Nodup

/-- The spec's `Link` invariants: `quality ∈ [0,1]`, `latency_ms ≥ 0` on
every edge in the graph. -/
def ValidLinks (g : Graph) : Prop :=
  ∀ p ∈ g, ∀ vl ∈ p.2, 0 ≤ (vl.2 : Link).latency_ms ∧
    0 ≤ (vl.2 : Link).quality ∧ (vl.2 : Link).quality ≤ 1

/-- The Dijkstra working state: the `cost` map (`none` = the `+∞` a graph
key is initialised to; every key the loop reads is initialised), the
predecessor map `prev`, and the priority queue as a multiset of
`(cost, node)` pairs. `processed` is a ghost trace of the nodes whose
neighbours have been relaxed (the non-stale pops); it influences nothing
the algorithm computes and exists only for the invariants and the
termination measure. -/
structure DState where
  cost : String → Option ℚ
  prev : String → Option String
  pq : List (ℚ × String)
  processed : List String

/-- `std::pair` ordering on queue entries (`priority_queue` with `greater`
pops the lexicographically least pair). -/
def pairLt (a b : ℚ × String) : Prop :=
  a.1 < b.1 ∨ (a.1 = b.1 ∧ a.2 < b.2)

instance : DecidableRel pairLt := fun a b =>
  inferInstanceAs (Decidable (a.1 < b.1 ∨ (a.1 = b.1 ∧ a.2 < b.2)))

/-- The least entry of the queue (`pq.top()` under `greater<>`); among
equal pairs any occurrence is the same value. -/
def findMinPair : List (ℚ × String) → Option (ℚ × String)
  | [] => none
  | x :: xs =>
    match findMinPair xs with
    | none => some x
    | some m => some (if pairLt m x then m else x)

/-- `new_cost < cost[v]` where a missing `cost[v]` reads as `+∞`. -/
def ltOptB (q : ℚ) : Option ℚ → Bool
  | none => true
  | some r => decide (q < r)

/-- One relaxation `new_cost = cost[u] + edge_cost; if (new_cost < cost[v])`.
`cost u` is re-read per edge as in the source; the `none` branch cannot be
reached (the processing branch established a finite `cost u`). -/
def relaxOne (g : Graph) (u : String) (s : DState) (e : String × Link) : DState :=
  match s.cost u with
  | none => s
  | some qu =>
    let newCost := qu + ecost e.2
    if ltOptB newCost (s.cost e.1) then
      { cost := mapPut s.cost e.1 newCost,
        prev := mapPut s.prev e.1 u,
        pq := (newCost, e.1) :: s.pq,
        processed := s.processed }
    else s

/-- Relax all of `u`'s neighbours. -/
def relaxAll (g : Graph) (u : String) (s : DState) : DState :=
  (adjOf g u).foldl (relaxOne g u) s

/-- The Dijkstra main loop. Each iteration pops the least entry; popping
`dest` breaks; a stale entry (`curr_cost > cost[u]`) is skipped; otherwise
`u`'s neighbours are relaxed. The fuel passed by `find_route` dominates the
loop's termination measure, so the `0` case is never the exit (proved in
the invariant lemmas). -/
def dijkstraLoop (g : Graph) (dest : String) : Nat → DState → DState
  | 0, s => s
  | fuel + 1, s =>
    match findMinPair s.pq with
    | none => s
    | some cu =>
      if cu.2 = dest then s
      else
        let rest := s.pq.erase cu
        match s.cost cu.2 with
        | none => dijkstraLoop g dest fuel { s with pq := rest }
        | some qu =>
          if qu < cu.1 then dijkstraLoop g dest fuel { s with pq := rest }
          else dijkstraLoop g dest fuel
            (relaxAll g cu.2
              { s with pq := rest, processed := cu.2 :: s.processed })

/-- Path reconstruction: walk `prev` from `dest`, prepending, until the
source (or until a missing predecessor, which cannot happen for a reached
`dest`). The fuel passed by `find_route` exceeds the chain length. -/
def buildPath (prev : String → Option String) (source : String) :
    Nat → String → List String
  | 0, _ => []
  | fuel + 1, current =>
    if current = source then [current]
    else
      match prev current with
      | none => [current]
      | some p => buildPath prev source fuel p ++ [current]

/-- All node names mentioned by the graph, plus the source, deduplicated —
the universe every queued node belongs to. -/
def universeOf (g : Graph) (source : String) : List String :=
  (source :: (g.map (fun p => p.1 :: p.2.map Prod.fst)).flatten).dedup

/-- The largest adjacency-list length, bounding the pushes of one
processing step. -/
def maxDeg (g : Graph) : Nat :=
  (g.map (fun p => p.2.length)).foldr max 0

/-- The loop's termination measure: queue length plus (unprocessed universe
nodes) × (max degree + 1). -/
def measureD (g : Graph) (source : String) (s : DState) : Nat :=
  s.pq.length +
    ((universeOf g source).filter (fun v => v ∉ s.processed)).length *
      (maxDeg g + 1)

/-- The initial Dijkstra state: `cost[source] = 0`, every other key `+∞`,
queue `{(0, source)}`. -/
def initState (source : String) : DState :=
  { cost := fun v => if v = source then some 0 else none,
    prev := fun _ => none, pq := [(0, source)], processed := [] }

/-- The metrics loop over the reconstructed path's consecutive edges. -/
def routeMetrics (g : Graph) (p : List String) : ℚ × Option ℚ × ℚ :=
  (p.zip p.tail).foldl
    (fun acc ab =>
      let l := linkOf g ab.1 ab.2
      (acc.1 + l.latency_ms,
       match acc.2.1 with
       | none => some l.bandwidth_mbps
       | some b => some (min b l.bandwidth_mbps),
       acc.2.2 * l.quality))
    (0, none, 1)

/-- `Routing::find_route` = `Routing::dijkstra`. -/
def find_route (g : Graph) (source dest : String) : Route :=
  let final := dijkstraLoop g dest
    (1 + (universeOf g source).length * (maxDeg g + 1) + 1) (initState source)
  if (final.prev dest).isSome ∨ dest = source then
    let p := buildPath final.prev source ((universeOf g source).length + 1) dest
    let m := routeMetrics g p
    { path := p, total_latency_ms := m.1, min_bandwidth_mbps := m.2.1,
      quality_score := m.2.2 }
  else defaultRoute

/-- A path from `source` to `dest` in the graph: non-empty, with the right
endpoints, every consecutive pair an existing edge. -/
def IsPath (g : Graph) (source dest : String) (p : List String) : Prop :=
  p.head? = some source ∧ p.getLast? = some dest ∧
    ∀ ab ∈ p.zip p.tail, (lookupEdge g ab.1 ab.2).isSome

/-- The total cost of a path under the Dijkstra cost function, summed over
its edges. -/
def pathCost (g : Graph) (p : List String) : ℚ :=
  ((p.zip p.tail).map (fun ab => ecost (linkOf g ab.1 ab.2))).sum

/-- The predecessor chain from `v` reaches the source. -/
inductive Reaches (prev : String → Option String) (source : String) :
    String → Prop
  | base : Reaches prev source source
  | step {w y : String} : prev w = some y → Reaches prev source y →
      Reaches prev source w

theorem findMinPair_eq_none {l : List (ℚ × String)} :
    findMinPair l = none ↔ l = [] := by
  cases l with
  | nil => simp [findMinPair]
  | cons x xs =>
    simp only [findMinPair]
    cases findMinPair xs <;> simp

theorem findMinPair_mem {l : List (ℚ × String)} {m : ℚ × String}
    (h : findMinPair l = some m) : m ∈ l := by
  induction l with
  | nil => cases h
  | cons x xs ih =>
    simp only [findMinPair] at h
    cases hxs : findMinPair xs with
    | none =>
      rw [hxs] at h
      have h' : some x = some m := h
      cases h'
      exact List.mem_cons_self _ _
    | some m' =>
      rw [hxs] at h
      have h' : some (if pairLt m' x then m' else x) = some m := h
      by_cases hlt : pairLt m' x
      · rw [if_pos hlt] at h'
        cases h'
        exact List.mem_cons_of_mem _ (ih hxs)
      · rw [if_neg hlt] at h'
        cases h'
        exact List.mem_cons_self _ _

theorem findMinPair_le : ∀ (l : List (ℚ × String)) (m : ℚ × String),
    findMinPair l = some m → ∀ x ∈ l, m.1 ≤ x.1 := by
  intro l
  induction l with
  | nil => intro m h; cases h
  | cons x xs ih =>
    intro m h y hy
    simp only [findMinPair] at h
    cases hxs : findMinPair xs with
    | none =>
      rw [hxs] at h
      have h' : some x = some m := h
      have hxm : x = m := Option.some.inj h'
      have hxsnil : xs = [] := findMinPair_eq_none.mp hxs
      subst hxsnil
      have hyx : y = x := by simpa using hy
      exact le_of_eq (by rw [hyx, hxm])
    | some m' =>
      rw [hxs] at h
      have h' : some (if pairLt m' x then m' else x) = some m := h
      rcases List.mem_cons.mp hy with hyx | hy'
      · by_cases hlt : pairLt m' x
        · rw [if_pos hlt] at h'
          have hmm : m' = m := Option.some.inj h'
          rw [← hmm, hyx]
          rcases hlt with h1 | ⟨h1, _⟩
          · exact le_of_lt h1
          · exact le_of_eq h1
        · rw [if_neg hlt] at h'
          have hxm : x = m := Option.some.inj h'
          exact le_of_eq (by rw [hyx, hxm])
      · have hm' := ih m' hxs y hy'
        by_cases hlt : pairLt m' x
        · rw [if_pos hlt] at h'
          have hmm : m' = m := Option.some.inj h'
          rw [← hmm]
          exact hm'
        · rw [if_neg hlt] at h'
          have hxm : x = m := Option.some.inj h'
          rw [← hxm]
          rcases not_or.mp hlt with ⟨h1, _⟩
          push_neg at h1
          exact le_trans h1 hm'

theorem isPath_singleton (g : Graph) (v : String) : IsPath g v v [v] := by
  refine ⟨rfl, rfl, ?_⟩
  intro ab hab
  simp at hab

theorem pathCost_singleton (g : Graph) (v : String) : pathCost g [v] = 0 := rfl

/-- Consecutive pairs of a snoc. -/
theorem zip_tail_snoc {p : List String} {u : String} (v : String)
    (hu : p.getLast? = some u) :
    (p ++ [v]).zip ((p ++ [v]).tail) = p.zip p.tail ++ [(u, v)] := by
  induction p with
  | nil => cases hu
  | cons a t ih =>
    cases t with
    | nil =>
      simp only [List.getLast?_singleton, Option.some.injEq] at hu
      subst hu
      rfl
    | cons b t' =>
      have hu' : (b :: t').getLast? = some u := by
        simpa [List.getLast?_cons_cons] using hu
      have := ih hu'
      simp only [List.cons_append, List.zip_cons_cons, List.tail_cons] at this ⊢
      rw [this]

theorem isPath_snoc {g : Graph} {source u v : String} {p : List String}
    {l : Link} (hp : IsPath g source u p) (hl : lookupEdge g u v = some l) :
    IsPath g source v (p ++ [v]) := by
  obtain ⟨hhead, hlast, hlink⟩ := hp
  have hne : p ≠ [] := by
    intro h
    rw [h] at hhead
    cases hhead
  refine ⟨?_, ?_, ?_⟩
  · cases p with
    | nil => cases hhead
    | cons a t => simpa using hhead
  · simp [List.getLast?_append]
  · rw [zip_tail_snoc v hlast]
    intro ab hab
    rcases List.mem_append.mp hab with h1 | h2
    · exact hlink ab h1
    · simp only [List.mem_singleton] at h2
      subst h2
      simp [hl]

theorem pathCost_snoc {g : Graph} {u : String} {p : List String} (v : String)
    (hu : p.getLast? = some u) :
    pathCost g (p ++ [v]) = pathCost g p + ecost (linkOf g u v) := by
  unfold pathCost
  rw [zip_tail_snoc v hu, List.map_append, List.sum_append]
  simp

/-- Membership of an edge in the adjacency list gives its links' validity. -/
theorem valid_adj {g : Graph} (hv : ValidLinks g) {u : String} :
    ∀ vl ∈ adjOf g u, 0 ≤ (vl.2 : Link).latency_ms ∧
      0 ≤ (vl.2 : Link).quality ∧ (vl.2 : Link).quality ≤ 1 := by
  intro vl hvl
  unfold adjOf at hvl
  cases hf : g.find? (fun p => p.1 == u) with
  | none => rw [hf] at hvl; cases hvl
  | some pr =>
    rw [hf] at hvl
    exact hv pr (List.mem_of_find?_eq_some hf) vl hvl

theorem lookupEdge_mem_adj {g : Graph} {u v : String} {l : Link}
    (h : lookupEdge g u v = some l) : (v, l) ∈ adjOf g u := by
  unfold lookupEdge at h
  cases hf : (adjOf g u).find? (fun p => p.1 == v) with
  | none => rw [hf] at h; cases h
  | some pr =>
    rw [hf] at h
    have hmem := List.mem_of_find?_eq_some hf
    have hpred := List.find?_some hf
    have h1 : pr.1 = v := by simpa using hpred
    have h2 : pr.2 = l := by simpa using h
    have : pr = (v, l) := Prod.ext h1 h2
    rw [← this]
    exact hmem

theorem ecost_nonneg_of_adj {g : Graph} (hv : ValidLinks g) {u : String}
    {vl : String × Link} (h : vl ∈ adjOf g u) : 0 ≤ ecost vl.2 := by
  obtain ⟨h1, h2, h3⟩ := valid_adj hv vl h
  unfold ecost
  nlinarith

theorem ecost_nonneg_of_lookup {g : Graph} (hv : ValidLinks g) {u v : String}
    {l : Link} (h : lookupEdge g u v = some l) : 0 ≤ ecost l :=
  ecost_nonneg_of_adj hv (lookupEdge_mem_adj h)

/-- A linked path has nonnegative total cost. -/
theorem pathCost_nonneg {g : Graph} (hv : ValidLinks g) (p : List String)
    (hp : ∀ ab ∈ p.zip p.tail, (lookupEdge g ab.1 ab.2).isSome) :
    0 ≤ pathCost g p := by
  unfold pathCost
  refine List.sum_nonneg ?_
  intro x hx
  obtain ⟨ab, hab, rfl⟩ := List.mem_map.mp hx
  have := hp ab hab
  cases hle : lookupEdge g ab.1 ab.2 with
  | none => rw [hle] at this; cases this
  | some l =>
    have : linkOf g ab.1 ab.2 = l := by simp [linkOf, hle]
    rw [this]
    exact ecost_nonneg_of_lookup hv hle

/-- Unique keys give unique values in an adjacency list. -/
theorem adj_assoc_unique {l : List (String × Link)}
    (hnodup : (l.map Prod.fst).Nodup) {v : String} {a b : Link}
    (ha : (v, a) ∈ l) (hb : (v, b) ∈ l) : a = b := by
  induction l with
  | nil => cases ha
  | cons x xs ih =>
    have hx := List.nodup_cons.mp hnodup
    rcases List.mem_cons.mp ha with rfl | ha' <;>
      rcases List.mem_cons.mp hb with hb' | hb'
    · exact (congrArg Prod.snd hb'.symm)
    · exact absurd (List.mem_map.mpr ⟨(v, b), hb', rfl⟩) hx.1
    · obtain rfl := hb'
      exact absurd (List.mem_map.mpr ⟨(v, a), ha', rfl⟩) hx.1
    · exact ih hx.2 ha' hb'

/-- Unique keys give unique values in the outer graph map. -/
theorem outer_assoc_unique {g : Graph} (hnodup : (g.map Prod.fst).Nodup)
    {k : String} {a b : List (String × Link)}
    (ha : (k, a) ∈ g) (hb : (k, b) ∈ g) : a = b := by
  induction g with
  | nil => cases ha
  | cons x xs ih =>
    have hx := List.nodup_cons.mp hnodup
    rcases List.mem_cons.mp ha with rfl | ha' <;>
      rcases List.mem_cons.mp hb with hb' | hb'
    · exact (congrArg Prod.snd hb'.symm)
    · exact absurd (List.mem_map.mpr ⟨(k, b), hb', rfl⟩) hx.1
    · obtain rfl := hb'
      exact absurd (List.mem_map.mpr ⟨(k, a), ha', rfl⟩) hx.1
    · exact ih hx.2 ha' hb'

/-- A member `g` entry's adjacency is the `adjOf` of its key (map-key
uniqueness). -/
theorem adjOf_of_mem {g : Graph} (hwf : GraphWF g)
    {pr : String × List (String × Link)} (h : pr ∈ g) : adjOf g pr.1 = pr.2 := by
  unfold adjOf
  cases hf : g.find? (fun p => p.1 == pr.1) with
  | none =>
    have := List.find?_eq_none.mp hf pr h
    simp at this
  | some pr' =>
    have hmem := List.mem_of_find?_eq_some hf
    have hpred : pr'.1 = pr.1 := by simpa using List.find?_some hf
    have hpr' : pr' = (pr.1, pr'.2) := Prod.ext hpred rfl
    rw [hpr'] at hmem
    have heq : pr'.2 = pr.2 := outer_assoc_unique hwf.1 hmem h
    simp [heq]

/-- With unique keys, adjacency membership determines `lookupEdge`. -/
theorem lookupEdge_of_mem_adj {g : Graph} (hwf : GraphWF g) {u v : String}
    {l : Link} (h : (v, l) ∈ adjOf g u) : lookupEdge g u v = some l := by
  have hnodup : ((adjOf g u).map Prod.fst).Nodup := by
    unfold adjOf
    cases hf : g.find? (fun p => p.1 == u) with
    | none => simp
    | some pr =>
      simpa using hwf.2 pr (List.mem_of_find?_eq_some hf)
  unfold lookupEdge
  cases hf : (adjOf g u).find? (fun p => p.1 == v) with
  | none =>
    have := List.find?_eq_none.mp hf (v, l) h
    simp at this
  | some pr =>
    have hmem := List.mem_of_find?_eq_some hf
    have hpred : pr.1 = v := by simpa using List.find?_some hf
    have hpr : pr = (v, pr.2) := Prod.ext hpred rfl
    rw [hpr] at hmem
    have : pr.2 = l := adj_assoc_unique hnodup hmem h
    simp [this]

/-- A consecutive pair's first component is not the last element. -/
theorem zip_tail_mem_dropLast {p : List String} {a b : String}
    (h : (a, b) ∈ p.zip p.tail) : a ∈ p.dropLast := by
  induction p with
  | nil => cases h
  | cons x t ih =>
    cases t with
    | nil => cases h
    | cons y t' =>
      simp only [List.zip_cons_cons, List.tail_cons, List.mem_cons] at h
      rcases h with h1 | h2
      · have : a = x := congrArg Prod.fst h1
        subst this
        rw [List.dropLast_cons_of_ne_nil (by simp)]
        exact List.mem_cons_self _ _
      · rw [List.dropLast_cons_of_ne_nil (by simp)]
        exact List.mem_cons_of_mem _ (ih h2)

/-- Every non-head element of a list has a predecessor pair. -/
theorem pred_pair_of_mem : ∀ (p : List String) (hd x : String),
    p.head? = some hd → x ∈ p → x ≠ hd → ∃ a, (a, x) ∈ p.zip p.tail := by
  intro p
  induction p with
  | nil => intro hd x h; cases h
  | cons y t ih =>
    intro hd x hhd hx hne
    have hy : y = hd := by simpa using hhd
    subst hy
    rcases List.mem_cons.mp hx with rfl | hx'
    · exact absurd rfl hne
    · cases t with
      | nil => cases hx'
      | cons z t' =>
        by_cases hxz : x = z
        · subst hxz
          exact ⟨y, by simp⟩
        · obtain ⟨a, ha⟩ := ih z x rfl hx' hxz
          exact ⟨a, by simpa using Or.inr ha⟩

theorem pathCost_cons_cons (g : Graph) (a b : String) (t : List String) :
    pathCost g (a :: b :: t) = ecost (linkOf g a b) + pathCost g (b :: t) := by
  unfold pathCost
  simp [List.zip_cons_cons]

/-- Adjacency targets belong to the node universe. -/
theorem mem_universe_of_adj {g : Graph} {u source : String}
    {e : String × Link} (he : e ∈ adjOf g u) : e.1 ∈ universeOf g source := by
  unfold adjOf at he
  cases hf : g.find? (fun p => p.1 == u) with
  | none => rw [hf] at he; cases he
  | some pr =>
    rw [hf] at he
    have hpr : pr ∈ g := List.mem_of_find?_eq_some hf
    unfold universeOf
    rw [List.mem_dedup]
    refine List.mem_cons_of_mem _ (List.mem_flatten.mpr ?_)
    exact ⟨pr.1 :: pr.2.map Prod.fst, List.mem_map.mpr ⟨pr, hpr, rfl⟩,
      List.mem_cons_of_mem _ (List.mem_map.mpr ⟨e, he, rfl⟩)⟩

theorem source_mem_universe (g : Graph) (source : String) :
    source ∈ universeOf g source := by
  unfold universeOf
  rw [List.mem_dedup]
  exact List.mem_cons_self _ _

/-- The Dijkstra loop invariant minus the frontier clause (the frontier is
re-established edge by edge while relaxing). -/
structure Core (g : Graph) (source dest : String) (s : DState) : Prop where
  cost_path : ∀ v q, s.cost v = some q →
      ∃ p, IsPath g source v p ∧ pathCost g p = q
  pq_ge : ∀ cv ∈ s.pq, ∃ q, s.cost (cv : ℚ × String).2 = some q ∧ q ≤ cv.1
  tentative : ∀ v q, s.cost v = some q → v ∉ s.processed → (q, v) ∈ s.pq
  cost_source : s.cost source = some 0
  prev_source : s.prev source = none
  prev_edge : ∀ v u, s.prev v = some u → ∃ l qu qv, lookupEdge g u v = some l ∧
      s.cost u = some qu ∧ s.cost v = some qv ∧ qu + ecost l ≤ qv
  cost_prev : ∀ v q, s.cost v = some q → v = source ∨ (s.prev v).isSome
  reaches : ∀ v q, s.cost v = some q → Reaches s.prev source v
  proc_opt : ∀ u ∈ s.processed, ∃ qu, s.cost u = some qu ∧
      ∀ p, IsPath g source u p → qu ≤ pathCost g p
  proc_lt_pq : ∀ u ∈ s.processed, ∀ cv ∈ s.pq, (cv : ℚ × String).2 = u →
      ∃ qu, s.cost u = some qu ∧ qu < cv.1
  proc_le_pq : ∀ u ∈ s.processed, ∀ cv ∈ s.pq,
      ∃ qu, s.cost u = some qu ∧ qu ≤ (cv : ℚ × String).1
  dest_unproc : dest ∉ s.processed
  cost_mem : ∀ v q, s.cost v = some q → v ∈ universeOf g source
  dup_free : s.pq.Pairwise (fun a b => a.2 = b.2 → a.1 ≠ b.1)

/-- The full loop invariant. -/
structure Inv (g : Graph) (source dest : String) (s : DState) extends
    Core g source dest s : Prop where
  frontier : ∀ u ∈ s.processed, ∀ vl ∈ adjOf g u, ∃ qu qv,
      s.cost u = some qu ∧ s.cost (vl : String × Link).1 = some qv ∧
      qv ≤ qu + ecost vl.2

/-- Tentative costs are nonnegative (they are costs of real paths). -/
theorem cost_nonneg {g : Graph} {source dest : String} {s : DState}
    (hval : ValidLinks g) (hC : Core g source dest s) {v : String} {q : ℚ}
    (h : s.cost v = some q) : 0 ≤ q := by
  obtain ⟨p, hp, hpc⟩ := hC.cost_path v q h
  rw [← hpc]
  exact pathCost_nonneg hval p hp.2.2

/-- Chain lemma: rewiring `prev` at `v` keeps reachability of every node
whose tentative cost is strictly below every tentative cost of `v`. -/
theorem reaches_mapPut_of_lt {g : Graph} {source dest : String} {s : DState}
    (hval : ValidLinks g) (hC : Core g source dest s) (v u : String) :
    ∀ x, Reaches s.prev source x → ∀ qx, s.cost x = some qx →
      (∀ qv, s.cost v = some qv → qx < qv) →
      Reaches (mapPut s.prev v u) source x := by
  intro x hr
  induction hr with
  | base =>
    intro qx hx hvlt
    exact .base
  | step hprev hry ih =>
    rename_i w y
    intro qw hw hvlt
    have hwv : w ≠ v := by
      intro he
      subst he
      exact absurd (hvlt qw hw) (lt_irrefl qw)
    obtain ⟨l, qy, qw', hl, hy, hw', hle⟩ := hC.prev_edge w y hprev
    have hq : qw' = qw := by
      rw [hw] at hw'
      exact (Option.some.inj hw').symm
    subst hq
    have hqy : qy ≤ qw' := by
      have := ecost_nonneg_of_lookup hval hl
      linarith
    refine .step ?_ (ih qy hy (fun qv hqv => lt_of_le_of_lt hqy (hvlt qv hqv)))
    rw [mapPut_other _ _ _ _ hwv]
    exact hprev

/-- Chain lemma: if `v` itself reaches the source through the rewired map,
everything that reached the source before still does. -/
theorem reaches_mapPut {prev : String → Option String} {source v u : String}
    (hv' : Reaches (mapPut prev v u) source v) :
    ∀ x, Reaches prev source x → Reaches (mapPut prev v u) source x := by
  intro x hr
  induction hr with
  | base => exact .base
  | step hprev hry ih =>
    rename_i w y
    by_cases hwv : w = v
    · subst hwv
      exact hv'
    · refine .step ?_ ih
      rw [mapPut_other _ _ _ _ hwv]
      exact hprev

/-- Cover, walking a linked list from a processed node: some queue entry is
at most the processed node's cost plus the remaining walk's cost. -/
theorem cover_aux {g : Graph} {source dest : String} {s : DState}
    (hval : ValidLinks g) (hwf : GraphWF g)
    (hI : Inv g source dest s) :
    ∀ (p' : List String) (x : String) (qx : ℚ), x ∈ s.processed →
      s.cost x = some qx →
      (∀ ab ∈ (x :: p').zip p', (lookupEdge g ab.1 ab.2).isSome) →
      ∀ t, (x :: p').getLast? = some t → t ∉ s.processed →
      ∃ cv ∈ s.pq, (cv : ℚ × String).1 ≤ qx + pathCost g (x :: p') := by
  intro p'
  induction p' with
  | nil =>
    intro x qx hxp hxc _ t hlast ht
    have : t = x := by simpa using hlast.symm
    subst this
    exact absurd hxp ht
  | cons v p'' ih =>
    intro x qx hxp hxc hlink t hlast ht
    have hxv : (lookupEdge g x v).isSome := by
      refine hlink (x, v) ?_
      simp [List.zip_cons_cons]
    obtain ⟨l, hl⟩ := Option.isSome_iff_exists.mp hxv
    obtain ⟨qx', qv, hx', hv, hfr⟩ :=
      hI.frontier x hxp (v, l) (lookupEdge_mem_adj hl)
    have hq : qx' = qx := by
      rw [hxc] at hx'
      exact (Option.some.inj hx').symm
    subst hq
    have hlinkrest : ∀ ab ∈ (v :: p'').zip p'', (lookupEdge g ab.1 ab.2).isSome := by
      intro ab hab
      refine hlink ab ?_
      simp [List.zip_cons_cons]
      exact Or.inr hab
    have hcost : pathCost g (x :: v :: p'') =
        ecost l + pathCost g (v :: p'') := by
      rw [pathCost_cons_cons]
      congr 2
      simp [linkOf, hl]
    have hlast' : (v :: p'').getLast? = some t := by
      simpa [List.getLast?_cons_cons] using hlast
    by_cases hvp : v ∈ s.processed
    · obtain ⟨cv, hcv, hle⟩ := ih v qv hvp hv hlinkrest t hlast' ht
      refine ⟨cv, hcv, ?_⟩
      rw [hcost]
      linarith
    · refine ⟨(qv, v), hI.tentative v qv hv hvp, ?_⟩
      have hnn : 0 ≤ pathCost g (v :: p'') := by
        refine pathCost_nonneg hval _ ?_
        intro ab hab
        refine hlinkrest ab ?_
        simpa using hab
      rw [hcost]
      simp only
      linarith

/-- Cover: for every path from the source to an unprocessed node, some
queue entry costs at most the path. -/
theorem cover {g : Graph} {source dest : String} {s : DState}
    (hval : ValidLinks g) (hwf : GraphWF g) (hI : Inv g source dest s)
    {p : List String} {t : String}
    (hp : IsPath g source t p) (ht : t ∉ s.processed) :
    ∃ cv ∈ s.pq, (cv : ℚ × String).1 ≤ pathCost g p := by
  obtain ⟨hhead, hlast, hlink⟩ := hp
  cases p with
  | nil => cases hhead
  | cons a p' =>
    have ha : a = source := by simpa using hhead
    subst ha
    by_cases hsp : a ∈ s.processed
    · obtain ⟨cv, hcv, hle⟩ := cover_aux hval hwf hI p' a 0 hsp
        hI.cost_source hlink t hlast ht
      exact ⟨cv, hcv, by linarith⟩
    · refine ⟨(0, a), hI.tentative a 0 hI.cost_source hsp, ?_⟩
      simpa using pathCost_nonneg hval _ hlink

/-- Effect of one relaxation while processing `u` at final cost `c`: the
core invariant is preserved, processed nodes and their costs are untouched,
costs only decrease, queue entries stay at least `c`, at most one entry is
pushed, and afterwards the edge's target is relaxed below `c` plus the edge
cost. -/
theorem relaxOne_spec {g : Graph} {source dest : String}
    (hval : ValidLinks g) (hwf : GraphWF g)
    {s : DState} {u : String} {c : ℚ} {e : String × Link}
    (he : e ∈ adjOf g u) (hucost : s.cost u = some c) (huproc : u ∈ s.processed)
    (hC : Core g source dest s)
    (hpc : ∀ x ∈ s.processed, ∃ q', s.cost x = some q' ∧ q' ≤ c)
    (hmin : ∀ cv ∈ s.pq, c ≤ (cv : ℚ × String).1) :
    Core g source dest (relaxOne g u s e) ∧
    (relaxOne g u s e).processed = s.processed ∧
    (∀ x ∈ s.processed, (relaxOne g u s e).cost x = s.cost x) ∧
    (∀ x q, s.cost x = some q →
      ∃ q', (relaxOne g u s e).cost x = some q' ∧ q' ≤ q) ∧
    (∀ cv ∈ (relaxOne g u s e).pq, c ≤ (cv : ℚ × String).1) ∧
    (relaxOne g u s e).pq.length ≤ s.pq.length + 1 ∧
    (∃ qv, (relaxOne g u s e).cost e.1 = some qv ∧ qv ≤ c + ecost e.2) := by
  have hred : relaxOne g u s e =
      (if ltOptB (c + ecost e.2) (s.cost e.1) then
        { cost := mapPut s.cost e.1 (c + ecost e.2),
          prev := mapPut s.prev e.1 u,
          pq := (c + ecost e.2, e.1) :: s.pq,
          processed := s.processed }
      else s) := by
    unfold relaxOne
    rw [hucost]
  rw [hred]
  by_cases hup : ltOptB (c + ecost e.2) (s.cost e.1)
  case neg =>
    rw [if_neg hup]
    refine ⟨hC, rfl, fun _ _ => rfl, fun x q hx => ⟨q, hx, le_refl _⟩,
      hmin, by omega, ?_⟩
    cases hv : s.cost e.1 with
    | none =>
      rw [hv] at hup
      simp [ltOptB] at hup
    | some r =>
      refine ⟨r, rfl, ?_⟩
      rw [hv] at hup
      simp only [ltOptB, decide_eq_true_eq] at hup
      exact le_of_not_lt hup
  case pos =>
    rw [if_pos hup]
    set v := e.1 with hv_def
    set w := ecost e.2 with hw_def
    set nc := c + w with hnc_def
    have hw0 : 0 ≤ w := ecost_nonneg_of_adj hval he
    have hc0 : 0 ≤ c := cost_nonneg hval hC hucost
    have hvltfact : ∀ qv, s.cost v = some qv → nc < qv := by
      intro qv hqv
      rw [hqv] at hup
      simpa [ltOptB] using hup
    have hvs : v ≠ source := by
      intro hvsrc
      have := hvltfact 0 (by rw [hvsrc]; exact hC.cost_source)
      linarith
    have hvnp : v ∉ s.processed := by
      intro hvp
      obtain ⟨q', hq', hle⟩ := hpc v hvp
      have := hvltfact q' hq'
      linarith
    have huv : u ≠ v := fun h => hvnp (h ▸ huproc)
    have he' : (e.1, e.2) ∈ adjOf g u := by
      simpa using he
    have hlk : lookupEdge g u v = some e.2 := lookupEdge_of_mem_adj hwf he'
    have hcost_v : mapPut s.cost v nc v = some nc := mapPut_same _ _ _
    have hcost_other : ∀ x, x ≠ v → mapPut s.cost v nc x = s.cost x :=
      fun x hx => mapPut_other _ _ _ _ hx
    have hcost_u : mapPut s.cost v nc u = some c := by
      rw [hcost_other u huv]
      exact hucost
    have hprev_v : mapPut s.prev v u v = some u := mapPut_same _ _ _
    have hprev_other : ∀ x, x ≠ v → mapPut s.prev v u x = s.prev x :=
      fun x hx => mapPut_other _ _ _ _ hx
    -- reachability of v through the rewired prev map
    have hreach_u' : Reaches (mapPut s.prev v u) source u := by
      refine reaches_mapPut_of_lt hval hC v u u
        (hC.reaches u c hucost) c hucost ?_
      intro qv hqv
      have := hvltfact qv hqv
      linarith
    have hreach_v : Reaches (mapPut s.prev v u) source v :=
      .step hprev_v hreach_u'
    refine ⟨?_, rfl, ?_, ?_, ?_, ?_, ?_⟩
    · constructor
      case cost_path =>
        intro x q hx
        dsimp only at hx
        by_cases hxv : x = v
        · subst hxv
          rw [hcost_v] at hx
          obtain rfl := Option.some.inj hx
          obtain ⟨p, hp, hpc'⟩ := hC.cost_path u c hucost
          refine ⟨p ++ [v], isPath_snoc hp hlk, ?_⟩
          rw [pathCost_snoc v hp.2.1, hpc']
          have : linkOf g u v = e.2 := by simp [linkOf, hlk]
          rw [this]
        · rw [hcost_other x hxv] at hx
          exact hC.cost_path x q hx
      case pq_ge =>
        intro cv hcv
        dsimp only at hcv ⊢
        rcases List.mem_cons.mp hcv with rfl | hcv'
        · exact ⟨nc, hcost_v, le_refl _⟩
        · obtain ⟨q, hq, hle⟩ := hC.pq_ge cv hcv'
          by_cases hxv : cv.2 = v
          · rw [hxv] at hq ⊢
            exact ⟨nc, hcost_v, le_trans (le_of_lt (hvltfact q hq)) hle⟩
          · rw [hcost_other cv.2 hxv]
            exact ⟨q, hq, hle⟩
      case tentative =>
        intro x q hx hxp
        dsimp only at hx ⊢
        by_cases hxv : x = v
        · subst hxv
          rw [hcost_v] at hx
          obtain rfl := Option.some.inj hx
          exact List.mem_cons_self _ _
        · rw [hcost_other x hxv] at hx
          exact List.mem_cons_of_mem _ (hC.tentative x q hx hxp)
      case cost_source =>
        dsimp only
        rw [hcost_other source (fun h => hvs h.symm)]
        exact hC.cost_source
      case prev_source =>
        dsimp only
        rw [hprev_other source (fun h => hvs h.symm)]
        exact hC.prev_source
      case prev_edge =>
        intro x y hxy
        dsimp only at hxy ⊢
        by_cases hxv : x = v
        · subst hxv
          rw [hprev_v] at hxy
          obtain rfl := Option.some.inj hxy
          exact ⟨e.2, c, nc, hlk, hcost_u, hcost_v, le_refl _⟩
        · rw [hprev_other x hxv] at hxy
          obtain ⟨l, qy, qx, hl, hy, hx, hle⟩ := hC.prev_edge x y hxy
          by_cases hyv : y = v
          · subst hyv
            refine ⟨l, nc, qx, hl, hcost_v, ?_, ?_⟩
            · rw [hcost_other x hxv]
              exact hx
            · have := hvltfact qy hy
              linarith
          · refine ⟨l, qy, qx, hl, ?_, ?_, hle⟩
            · rw [hcost_other y hyv]
              exact hy
            · rw [hcost_other x hxv]
              exact hx
      case cost_prev =>
        intro x q hx
        dsimp only at hx ⊢
        by_cases hxv : x = v
        · subst hxv
          right
          rw [hprev_v]
          rfl
        · rw [hcost_other x hxv] at hx
          rcases hC.cost_prev x q hx with h | h
          · exact Or.inl h
          · right
            rw [hprev_other x hxv]
            exact h
      case reaches =>
        intro x q hx
        dsimp only at hx ⊢
        by_cases hxv : x = v
        · subst hxv
          exact hreach_v
        · rw [hcost_other x hxv] at hx
          exact reaches_mapPut hreach_v x (hC.reaches x q hx)
      case proc_opt =>
        intro x hx
        dsimp only at hx ⊢
        obtain ⟨qx, hqx, hopt⟩ := hC.proc_opt x hx
        refine ⟨qx, ?_, hopt⟩
        rw [hcost_other x (fun h => hvnp (h ▸ hx))]
        exact hqx
      case proc_lt_pq =>
        intro x hx cv hcv hcvx
        dsimp only at hx hcv hcvx ⊢
        rcases List.mem_cons.mp hcv with rfl | hcv'
        · dsimp only at hcvx
          subst hcvx
          exact absurd hx hvnp
        · obtain ⟨qx, hqx, hlt⟩ := hC.proc_lt_pq x hx cv hcv' hcvx
          refine ⟨qx, ?_, hlt⟩
          rw [hcost_other x (fun h => hvnp (h ▸ hx))]
          exact hqx
      case proc_le_pq =>
        intro x hx cv hcv
        dsimp only at hx hcv ⊢
        rcases List.mem_cons.mp hcv with rfl | hcv'
        · obtain ⟨qx, hqx, hle⟩ := hpc x hx
          refine ⟨qx, ?_, ?_⟩
          · rw [hcost_other x (fun h => hvnp (h ▸ hx))]
            exact hqx
          · dsimp only
            linarith
        · obtain ⟨qx, hqx, hle⟩ := hC.proc_le_pq x hx cv hcv'
          refine ⟨qx, ?_, hle⟩
          rw [hcost_other x (fun h => hvnp (h ▸ hx))]
          exact hqx
      case dest_unproc => exact hC.dest_unproc
      case cost_mem =>
        intro x q hx
        dsimp only at hx
        by_cases hxv : x = v
        · subst hxv
          exact mem_universe_of_adj he
        · rw [hcost_other x hxv] at hx
          exact hC.cost_mem x q hx
      case dup_free =>
        dsimp only
        rw [List.pairwise_cons]
        refine ⟨?_, hC.dup_free⟩
        intro b hb hbv
        dsimp only at hbv
        obtain ⟨qv0, hqv0, hle⟩ := hC.pq_ge b hb
        rw [← hbv] at hqv0
        have := hvltfact qv0 hqv0
        exact ne_of_lt (lt_of_lt_of_le this hle)
    · intro x hx
      exact hcost_other x (fun h => hvnp (h ▸ hx))
    · intro x q hx
      dsimp only
      by_cases hxv : x = v
      · subst hxv
        exact ⟨nc, hcost_v, le_of_lt (hvltfact q hx)⟩
      · rw [hcost_other x hxv]
        exact ⟨q, hx, le_refl _⟩
    · intro cv hcv
      dsimp only at hcv
      rcases List.mem_cons.mp hcv with rfl | hcv'
      · dsimp only
        linarith
      · exact hmin cv hcv'
    · simp
    · exact ⟨nc, hcost_v, le_refl _⟩

/-- Folding `relaxOne` over any sublist of `u`'s adjacency list: the core
invariant is preserved, processed nodes and their costs are untouched, costs
only decrease, queue entries stay at least `c`, at most one entry per edge
is pushed, and every folded edge ends up relaxed. -/
theorem relaxList_spec {g : Graph} {source dest : String}
    (hval : ValidLinks g) (hwf : GraphWF g) {u : String} {c : ℚ} :
    ∀ (es : List (String × Link)) (s : DState),
      (∀ e ∈ es, e ∈ adjOf g u) → s.cost u = some c → u ∈ s.processed →
      Core g source dest s →
      (∀ x ∈ s.processed, ∃ q', s.cost x = some q' ∧ q' ≤ c) →
      (∀ cv ∈ s.pq, c ≤ (cv : ℚ × String).1) →
      Core g source dest (es.foldl (relaxOne g u) s) ∧
      (es.foldl (relaxOne g u) s).processed = s.processed ∧
      (∀ x ∈ s.processed, (es.foldl (relaxOne g u) s).cost x = s.cost x) ∧
      (∀ x q, s.cost x = some q →
        ∃ q', (es.foldl (relaxOne g u) s).cost x = some q' ∧ q' ≤ q) ∧
      (∀ cv ∈ (es.foldl (relaxOne g u) s).pq, c ≤ (cv : ℚ × String).1) ∧
      (es.foldl (relaxOne g u) s).pq.length ≤ s.pq.length + es.length ∧
      (∀ e ∈ es, ∃ qv, (es.foldl (relaxOne g u) s).cost e.1 = some qv ∧
        qv ≤ c + ecost e.2) := by
  intro es
  induction es with
  | nil =>
    intro s _ _ _ hC _ hmin
    exact ⟨hC, rfl, fun _ _ => rfl, fun x q hx => ⟨q, hx, le_refl _⟩,
      hmin, by simp, by simp⟩
  | cons e es ih =>
    intro s hsub hu hup hC hpc hmin
    have he : e ∈ adjOf g u := hsub e (List.mem_cons_self _ _)
    obtain ⟨hC1, hproc1, hcp1, hmono1, hmin1, hlen1, hrel1⟩ :=
      relaxOne_spec hval hwf he hu hup hC hpc hmin
    set s1 := relaxOne g u s e with hs1
    have hu1 : s1.cost u = some c := by
      rw [hcp1 u hup]
      exact hu
    have hup1 : u ∈ s1.processed := by
      rw [hproc1]
      exact hup
    have hpc1 : ∀ x ∈ s1.processed, ∃ q', s1.cost x = some q' ∧ q' ≤ c := by
      intro x hx
      rw [hproc1] at hx
      obtain ⟨q', hq', hle⟩ := hpc x hx
      refine ⟨q', ?_, hle⟩
      rw [hcp1 x hx]
      exact hq'
    obtain ⟨hC', hproc', hcp', hmono', hmin', hlen', hrel'⟩ :=
      ih s1 (fun e' he' => hsub e' (List.mem_cons_of_mem _ he'))
        hu1 hup1 hC1 hpc1 hmin1
    simp only [List.foldl_cons, ← hs1]
    refine ⟨hC', ?_, ?_, ?_, hmin', ?_, ?_⟩
    · rw [hproc', hproc1]
    · intro x hx
      have hx1 : x ∈ s1.processed := by
        rw [hproc1]
        exact hx
      rw [hcp' x hx1, hcp1 x hx]
    · intro x q hx
      obtain ⟨q1, hq1, hle1⟩ := hmono1 x q hx
      obtain ⟨q', hq', hle'⟩ := hmono' x q1 hq1
      exact ⟨q', hq', le_trans hle' hle1⟩
    · calc (es.foldl (relaxOne g u) s1).pq.length
          ≤ s1.pq.length + es.length := hlen'
        _ ≤ (s.pq.length + 1) + es.length := by omega
        _ = s.pq.length + (e :: es).length := by simp; omega
    · intro e' he'
      rcases List.mem_cons.mp he' with rfl | he''
      · obtain ⟨qv, hqv, hle⟩ := hrel1
        obtain ⟨qv', hqv', hle'⟩ := hmono' e'.1 qv hqv
        exact ⟨qv', hqv', le_trans hle' hle⟩
      · exact hrel' e' he''

theorem mem_le_foldr_max : ∀ (l : List Nat) (n : Nat), n ∈ l →
    n ≤ l.foldr max 0 := by
  intro l
  induction l with
  | nil => intro n h; cases h
  | cons a t ih =>
    intro n h
    rcases List.mem_cons.mp h with rfl | h'
    · exact le_max_left _ _
    · exact le_trans (ih n h') (le_max_right _ _)

/-- Every adjacency list is at most `maxDeg` long. -/
theorem adj_len_le_maxDeg (g : Graph) (u : String) :
    (adjOf g u).length ≤ maxDeg g := by
  unfold adjOf maxDeg
  cases hf : g.find? (fun p => p.1 == u) with
  | none => simp
  | some pr =>
    simp only [Option.map_some', Option.getD_some]
    exact mem_le_foldr_max _ _
      (List.mem_map.mpr ⟨pr, List.mem_of_find?_eq_some hf, rfl⟩)

/-- Marking an unprocessed member of a duplicate-free list processed lowers
the unprocessed count by exactly one. -/
theorem filter_notmem_cons_length :
    ∀ (l : List String) (u : String) (proc : List String), l.Nodup →
      u ∈ l → u ∉ proc →
      (l.filter (fun v => v ∉ proc)).length =
        (l.filter (fun v => v ∉ u :: proc)).length + 1 := by
  intro l
  induction l with
  | nil => intro u proc _ hu; cases hu
  | cons a t ih =>
    intro u proc hnd hu hup
    obtain ⟨hat, hndt⟩ := List.nodup_cons.mp hnd
    rcases List.mem_cons.mp hu with rfl | hut
    · have hfeq : t.filter (fun v => v ∉ u :: proc) =
          t.filter (fun v => v ∉ proc) := by
        refine List.filter_congr ?_
        intro x hx
        have hxu : x ≠ u := fun h => hat (h ▸ hx)
        simp [List.mem_cons, hxu]
      rw [List.filter_cons, List.filter_cons]
      have h1 : (decide (u ∉ proc)) = true := by simpa using hup
      have h2 : (decide (u ∉ u :: proc)) = false := by simp
      rw [h1, h2, if_pos rfl]
      simp only [Bool.false_eq_true, if_false]
      rw [hfeq]
      simp
    · have hau : a ≠ u := fun h => hat (h ▸ hut)
      rw [List.filter_cons, List.filter_cons]
      have heq : (decide (a ∉ u :: proc)) = (decide (a ∉ proc)) := by
        simp [List.mem_cons, hau]
      rw [heq]
      by_cases hap : a ∉ proc
      · rw [if_pos (by simpa using hap), if_pos (by simpa using hap)]
        simp only [List.length_cons]
        rw [ih u proc hndt hut hup]
      · rw [if_neg (by simpa using hap), if_neg (by simpa using hap)]
        exact ih u proc hndt hut hup

/-- A stale pop (`curr_cost > cost[u]`) only shrinks the queue; the
invariant survives. -/
theorem skip_inv {g : Graph} {source dest : String} {s : DState}
    (hI : Inv g source dest s) {cu : ℚ × String}
    (hfm : findMinPair s.pq = some cu) {qu : ℚ}
    (hqu : s.cost cu.2 = some qu) (hlt : qu < cu.1) :
    Inv g source dest { s with pq := s.pq.erase cu } := by
  refine ⟨⟨hI.cost_path, ?_, ?_, hI.cost_source, hI.prev_source, hI.prev_edge,
    hI.cost_prev, hI.reaches, hI.proc_opt, ?_, ?_, hI.dest_unproc,
    hI.cost_mem, ?_⟩, hI.frontier⟩
  · intro cv hcv
    exact hI.pq_ge cv (List.mem_of_mem_erase hcv)
  · intro v q hv hvp
    have hmem := hI.tentative v q hv hvp
    have hne : (q, v) ≠ cu := by
      intro heq
      have h2 : s.cost v = some qu := by
        rw [← heq] at hqu
        exact hqu
      rw [hv] at h2
      obtain rfl := Option.some.inj h2
      have h3 : q < (q, v).1 := by
        rw [heq]
        exact hlt
      exact absurd h3 (lt_irrefl q)
    exact (List.mem_erase_of_ne hne).mpr hmem
  · intro x hx cv hcv hcvx
    exact hI.proc_lt_pq x hx cv (List.mem_of_mem_erase hcv) hcvx
  · intro x hx cv hcv
    exact hI.proc_le_pq x hx cv (List.mem_of_mem_erase hcv)
  · exact List.Pairwise.sublist (List.erase_sublist _ _) hI.dup_free

/-- An element of a pairwise list is related to everything left after
erasing one of its occurrences. -/
theorem pairwise_erase_head {α : Type} [BEq α] [LawfulBEq α]
    {R : α → α → Prop} (hsym : ∀ {a b : α}, R a b → R b a) :
    ∀ (l : List α) (a : α), l.Pairwise R → a ∈ l →
      ∀ b ∈ l.erase a, R a b := by
  intro l
  induction l with
  | nil => intro a _ ha; cases ha
  | cons x t ih =>
    intro a hp ha b hb
    rw [List.pairwise_cons] at hp
    rw [List.erase_cons] at hb
    by_cases hxa : x = a
    · subst hxa
      rw [if_pos (by simp)] at hb
      exact hp.1 b hb
    · rw [if_neg (by simpa using hxa)] at hb
      have ha' : a ∈ t := by
        rcases List.mem_cons.mp ha with rfl | h
        · exact absurd rfl hxa
        · exact h
      rcases List.mem_cons.mp hb with rfl | hb'
      · exact hsym (hp.1 a ha')
      · exact ih a hp.2 ha' b hb'

/-- Processing a popped minimal non-stale entry: the node is marked
processed at its (now optimal) cost, all its edges are relaxed, the
invariant holds again, and the termination measure drops by at least two. -/
theorem process_inv {g : Graph} {source dest : String} {s : DState}
    (hval : ValidLinks g) (hwf : GraphWF g) (hI : Inv g source dest s)
    {cu : ℚ × String} (hfm : findMinPair s.pq = some cu) (hnd : cu.2 ≠ dest)
    {qu : ℚ} (hqu : s.cost cu.2 = some qu) (hnlt : ¬ qu < cu.1) :
    Inv g source dest (relaxAll g cu.2
      { s with pq := s.pq.erase cu, processed := cu.2 :: s.processed }) ∧
    measureD g source (relaxAll g cu.2
      { s with pq := s.pq.erase cu, processed := cu.2 :: s.processed }) + 2 ≤
      measureD g source s := by
  have hcu : cu ∈ s.pq := findMinPair_mem hfm
  have hmin0 : ∀ x ∈ s.pq, cu.1 ≤ x.1 := findMinPair_le _ _ hfm
  have hqle : qu ≤ cu.1 := by
    obtain ⟨q, hq, hle⟩ := hI.pq_ge cu hcu
    rw [hqu] at hq
    obtain rfl := Option.some.inj hq
    exact hle
  have hceq : qu = cu.1 := le_antisymm hqle (le_of_not_lt hnlt)
  have hunp : cu.2 ∉ s.processed := by
    intro hup
    obtain ⟨q', hq', hlt⟩ := hI.proc_lt_pq cu.2 hup cu hcu rfl
    rw [hqu] at hq'
    obtain rfl := Option.some.inj hq'
    exact hnlt hlt
  have hsymm : ∀ {a b : ℚ × String}, (a.2 = b.2 → a.1 ≠ b.1) →
      (b.2 = a.2 → b.1 ≠ a.1) := fun h h2 heq => h h2.symm heq.symm
  have hhead_pw : ∀ cv ∈ s.pq.erase cu, cu.2 = cv.2 → cu.1 ≠ cv.1 :=
    pairwise_erase_head hsymm s.pq cu hI.dup_free hcu
  have hrest_pw : (s.pq.erase cu).Pairwise (fun a b => a.2 = b.2 → a.1 ≠ b.1) :=
    List.Pairwise.sublist (List.erase_sublist _ _) hI.dup_free
  have hC0 : Core g source dest
      { s with pq := s.pq.erase cu, processed := cu.2 :: s.processed } := by
    refine ⟨hI.cost_path, ?_, ?_, hI.cost_source, hI.prev_source, hI.prev_edge,
      hI.cost_prev, hI.reaches, ?_, ?_, ?_, ?_, hI.cost_mem, hrest_pw⟩
    · intro cv hcv
      exact hI.pq_ge cv (List.mem_of_mem_erase hcv)
    · intro v q hv hvp
      dsimp only at hvp
      have hvp' : v ∉ s.processed := fun h => hvp (List.mem_cons_of_mem _ h)
      have hvu : v ≠ cu.2 := fun h => hvp (h ▸ List.mem_cons_self _ _)
      have hmem := hI.tentative v q hv hvp'
      refine (List.mem_erase_of_ne ?_).mpr hmem
      intro heq
      exact hvu (by rw [← heq])
    · intro x hx
      dsimp only at hx
      rcases List.mem_cons.mp hx with rfl | hx'
      · refine ⟨qu, hqu, ?_⟩
        intro p hp
        obtain ⟨cv, hcv, hle⟩ := cover hval hwf hI hp hunp
        have := hmin0 cv hcv
        linarith
      · exact hI.proc_opt x hx'
    · intro x hx cv hcv hcvx
      dsimp only at hx
      rcases List.mem_cons.mp hx with rfl | hx'
      · refine ⟨qu, hqu, ?_⟩
        have h1 : cu.1 ≤ cv.1 := hmin0 cv (List.mem_of_mem_erase hcv)
        have h2 : cu.1 ≠ cv.1 := hhead_pw cv hcv hcvx.symm
        rw [hceq]
        exact lt_of_le_of_ne h1 h2
      · exact hI.proc_lt_pq x hx' cv (List.mem_of_mem_erase hcv) hcvx
    · intro x hx cv hcv
      dsimp only at hx
      rcases List.mem_cons.mp hx with rfl | hx'
      · refine ⟨qu, hqu, ?_⟩
        rw [hceq]
        exact hmin0 cv (List.mem_of_mem_erase hcv)
      · exact hI.proc_le_pq x hx' cv (List.mem_of_mem_erase hcv)
    · dsimp only
      rw [List.mem_cons]
      push_neg
      exact ⟨fun h => hnd h.symm, hI.dest_unproc⟩
  have hu0 : ({ s with
      pq := s.pq.erase cu,
      processed := cu.2 :: s.processed } : DState).cost cu.2 = some cu.1 := by
    dsimp only
    rw [hqu, hceq]
  have hpc0 : ∀ x ∈ ({ s with
      pq := s.pq.erase cu,
      processed := cu.2 :: s.processed } : DState).processed,
      ∃ q', ({ s with
        pq := s.pq.erase cu,
        processed := cu.2 :: s.processed } : DState).cost x = some q' ∧
        q' ≤ cu.1 := by
    intro x hx
    dsimp only at hx ⊢
    rcases List.mem_cons.mp hx with rfl | hx'
    · exact ⟨qu, hqu, hqle⟩
    · obtain ⟨q', hq', hle⟩ := hI.proc_le_pq x hx' cu hcu
      exact ⟨q', hq', hle⟩
  have hmin1 : ∀ cv ∈ ({ s with
      pq := s.pq.erase cu,
      processed := cu.2 :: s.processed } : DState).pq,
      cu.1 ≤ (cv : ℚ × String).1 := by
    intro cv hcv
    exact hmin0 cv (List.mem_of_mem_erase hcv)
  obtain ⟨hC', hproc', hcp', hmono', hmin', hlen', hrel'⟩ :=
    relaxList_spec hval hwf (adjOf g cu.2) _ (fun e he => he) hu0
      (List.mem_cons_self _ _) hC0 hpc0 hmin1
  have hAeq : relaxAll g cu.2 { s with
      pq := s.pq.erase cu,
      processed := cu.2 :: s.processed } = (adjOf g cu.2).foldl
      (relaxOne g cu.2) { s with
        pq := s.pq.erase cu,
        processed := cu.2 :: s.processed } := rfl
  rw [hAeq]
  constructor
  · refine ⟨hC', ?_⟩
    intro x hx vl hvl
    rw [hproc'] at hx
    dsimp only at hx
    rcases List.mem_cons.mp hx with rfl | hx'
    · obtain ⟨qv, hqv, hle⟩ := hrel' vl hvl
      refine ⟨cu.1, qv, ?_, hqv, hle⟩
      rw [hcp' cu.2 (List.mem_cons_self _ _)]
      exact hu0
    · obtain ⟨qx0, qv0, hx0, hv0, hfr⟩ := hI.frontier x hx' vl hvl
      obtain ⟨qv', hqv', hle'⟩ := hmono' vl.1 qv0 hv0
      refine ⟨qx0, qv', ?_, hqv', by linarith⟩
      rw [hcp' x (List.mem_cons_of_mem _ hx')]
      exact hx0
  · have hlenq : (s.pq.erase cu).length + 1 = s.pq.length := by
      rw [List.length_erase_of_mem hcu]
      have := List.length_pos.mpr (List.ne_nil_of_mem hcu)
      omega
    have hdeg := adj_len_le_maxDeg g cu.2
    have humem : cu.2 ∈ universeOf g source := hI.cost_mem cu.2 qu hqu
    have hflt := filter_notmem_cons_length (universeOf g source) cu.2
      s.processed (List.nodup_dedup _) humem hunp
    unfold measureD
    rw [hproc']
    dsimp only
    have hmul : ((universeOf g source).filter
        (fun v => v ∉ s.processed)).length * (maxDeg g + 1) =
        ((universeOf g source).filter
          (fun v => v ∉ cu.2 :: s.processed)).length * (maxDeg g + 1) +
          (maxDeg g + 1) := by
      rw [hflt]
      ring
    have hlen'' := hlen'
    dsimp only at hlen''
    omega

/-- The loop, run with fuel exceeding the termination measure, keeps the
invariant and exits only on an empty queue or by popping the destination. -/
theorem dijkstraLoop_inv {g : Graph} {source dest : String}
    (hval : ValidLinks g) (hwf : GraphWF g) :
    ∀ (fuel : Nat) (s : DState), Inv g source dest s →
      measureD g source s < fuel →
      Inv g source dest (dijkstraLoop g dest fuel s) ∧
      ((dijkstraLoop g dest fuel s).pq = [] ∨
        ∃ cu, findMinPair (dijkstraLoop g dest fuel s).pq = some cu ∧
          (cu : ℚ × String).2 = dest) := by
  intro fuel
  induction fuel with
  | zero =>
    intro s _ hm
    omega
  | succ fuel ih =>
    intro s hI hm
    cases hfm : findMinPair s.pq with
    | none =>
      have heq : dijkstraLoop g dest (fuel + 1) s = s := by
        unfold dijkstraLoop
        rw [hfm]
      rw [heq]
      exact ⟨hI, Or.inl (findMinPair_eq_none.mp hfm)⟩
    | some cu =>
      by_cases hd : cu.2 = dest
      · have heq : dijkstraLoop g dest (fuel + 1) s = s := by
          unfold dijkstraLoop
          rw [hfm]
          simp only [if_pos hd]
        rw [heq]
        exact ⟨hI, Or.inr ⟨cu, hfm, hd⟩⟩
      · cases hq : s.cost cu.2 with
        | none =>
          exfalso
          obtain ⟨q, hq', _⟩ := hI.pq_ge cu (findMinPair_mem hfm)
          rw [hq] at hq'
          cases hq'
        | some qu =>
          by_cases hlt : qu < cu.1
          · have heq : dijkstraLoop g dest (fuel + 1) s =
                dijkstraLoop g dest fuel { s with pq := s.pq.erase cu } := by
              conv_lhs => rw [dijkstraLoop]
              rw [hfm]
              simp only [hq, if_neg hd, if_pos hlt]
            rw [heq]
            have hI' := skip_inv hI hfm hq hlt
            have hm' : measureD g source { s with pq := s.pq.erase cu } <
                fuel := by
              unfold measureD at hm ⊢
              dsimp only
              have h1 := List.length_erase_of_mem (findMinPair_mem hfm)
              have h2 := List.length_pos.mpr
                (List.ne_nil_of_mem (findMinPair_mem hfm))
              omega
            exact ih _ hI' hm'
          · have heq : dijkstraLoop g dest (fuel + 1) s =
                dijkstraLoop g dest fuel (relaxAll g cu.2 { s with
                  pq := s.pq.erase cu,
                  processed := cu.2 :: s.processed }) := by
              conv_lhs => rw [dijkstraLoop]
              rw [hfm]
              simp only [hq, if_neg hd, if_neg hlt]
            rw [heq]
            obtain ⟨hI', hdec⟩ := process_inv hval hwf hI hfm hd hq hlt
            exact ih _ hI' (by omega)

/-- Walking `prev` back from any reached node rebuilds a simple linked
path from the source whose cost is below the node's tentative cost;
`buildPath` returns exactly that path once its fuel covers the length. -/
theorem buildPath_spec {g : Graph} {source dest : String} {s : DState}
    (hC : Core g source dest s) :
    ∀ v, Reaches s.prev source v →
      ∃ p : List String,
        p.head? = some source ∧ p.getLast? = some v ∧
        (∀ ab ∈ p.zip p.tail, (lookupEdge g ab.1 ab.2).isSome) ∧
        (∀ ab ∈ p.zip p.tail, s.prev ab.2 = some ab.1) ∧
        p.Nodup ∧
        (∀ x ∈ p, x ∈ universeOf g source) ∧
        (∀ qv, s.cost v = some qv → pathCost g p ≤ qv) ∧
        (∀ fuel, p.length ≤ fuel → buildPath s.prev source fuel v = p) := by
  intro v hr
  induction hr with
  | base =>
    refine ⟨[source], rfl, rfl, ?_, ?_, List.nodup_singleton _, ?_, ?_, ?_⟩
    · intro ab hab
      simp at hab
    · intro ab hab
      simp at hab
    · intro x hx
      rw [List.mem_singleton] at hx
      subst hx
      exact source_mem_universe g x
    · intro qv hqv
      rw [hC.cost_source] at hqv
      obtain rfl := Option.some.inj hqv.symm
      rw [pathCost_singleton]
    · intro fuel hf
      cases fuel with
      | zero => simp at hf
      | succ f => simp [buildPath]
  | step hprev hry ih =>
    rename_i w y
    obtain ⟨p, hhead, hlast, hlink, hchain, hnd, huniv, hcost, hbuild⟩ := ih
    obtain ⟨l, qy0, qw0, hl, hy0, hw0, hle0⟩ := hC.prev_edge w y hprev
    have hwsrc : w ≠ source := by
      intro h
      rw [h, hC.prev_source] at hprev
      cases hprev
    have hpne : p ≠ [] := by
      intro h
      rw [h] at hhead
      cases hhead
    have hwp : w ∉ p := by
      intro hwmem
      obtain ⟨a, ha⟩ := pred_pair_of_mem p source w hhead hwmem hwsrc
      have hay : a = y := by
        have := (hchain (a, w) ha).symm.trans hprev
        exact Option.some.inj this
      subst hay
      have hydrop : a ∈ p.dropLast := zip_tail_mem_dropLast ha
      have hlasta : p.getLast hpne = a := by
        rw [List.getLast?_eq_getLast p hpne] at hlast
        exact Option.some.inj hlast
      have hsplit : p.dropLast ++ [a] = p := by
        rw [← hlasta]
        exact List.dropLast_append_getLast hpne
      have hnd2 : (p.dropLast ++ [a]).Nodup := by
        rw [hsplit]
        exact hnd
      exact (List.disjoint_of_nodup_append hnd2) hydrop
        (List.mem_singleton_self _)
    refine ⟨p ++ [w], ?_, List.getLast?_concat _, ?_, ?_, ?_, ?_, ?_, ?_⟩
    · cases p with
      | nil => cases hhead
      | cons a t => simpa using hhead
    · rw [zip_tail_snoc w hlast]
      intro ab hab
      rcases List.mem_append.mp hab with h | h
      · exact hlink ab h
      · rw [List.mem_singleton] at h
        subst h
        simp [hl]
    · rw [zip_tail_snoc w hlast]
      intro ab hab
      rcases List.mem_append.mp hab with h | h
      · exact hchain ab h
      · rw [List.mem_singleton] at h
        subst h
        exact hprev
    · refine List.Nodup.append hnd (List.nodup_singleton _) ?_
      intro x hx hx'
      rw [List.mem_singleton] at hx'
      subst hx'
      exact hwp hx
    · intro x hx
      rcases List.mem_append.mp hx with h | h
      · exact huniv x h
      · rw [List.mem_singleton] at h
        subst h
        exact hC.cost_mem x qw0 hw0
    · intro qw hw
      rw [hw0] at hw
      obtain rfl := Option.some.inj hw.symm
      rw [pathCost_snoc w hlast]
      have hlo : linkOf g y w = l := by simp [linkOf, hl]
      rw [hlo]
      have := hcost qy0 hy0
      linarith
    · intro fuel hf
      rw [List.length_append, List.length_singleton] at hf
      cases fuel with
      | zero => omega
      | succ f =>
        have hfp : p.length ≤ f := by omega
        show buildPath s.prev source (f + 1) w = p ++ [w]
        unfold buildPath
        rw [if_neg hwsrc, hprev]
        show buildPath s.prev source f y ++ [w] = p ++ [w]
        rw [hbuild f hfp]

/-- The invariant holds at the initial state. -/
theorem init_inv (g : Graph) (source dest : String) :
    Inv g source dest (initState source) := by
  refine ⟨⟨?_, ?_, ?_, ?_, rfl, ?_, ?_, ?_, ?_, ?_, ?_, ?_, ?_, ?_⟩, ?_⟩
  · intro v q h
    unfold initState at h
    dsimp only at h
    by_cases hv : v = source
    · subst hv
      rw [if_pos rfl] at h
      obtain rfl := Option.some.inj h
      exact ⟨[v], isPath_singleton g v, pathCost_singleton g v⟩
    · rw [if_neg hv] at h
      cases h
  · intro cv hcv
    unfold initState at hcv
    dsimp only at hcv
    rw [List.mem_singleton] at hcv
    subst hcv
    refine ⟨0, ?_, le_refl 0⟩
    show (if source = source then some (0 : ℚ) else none) = some 0
    rw [if_pos rfl]
  · intro v q h _
    unfold initState at h ⊢
    dsimp only at h ⊢
    by_cases hv : v = source
    · subst hv
      rw [if_pos rfl] at h
      obtain rfl := Option.some.inj h
      exact List.mem_singleton_self _
    · rw [if_neg hv] at h
      cases h
  · show (if source = source then some (0 : ℚ) else none) = some 0
    rw [if_pos rfl]
  · intro v u h
    cases h
  · intro v q h
    by_cases hv : v = source
    · exact Or.inl hv
    · exfalso
      unfold initState at h
      dsimp only at h
      rw [if_neg hv] at h
      cases h
  · intro v q h
    by_cases hv : v = source
    · subst hv
      exact .base
    · exfalso
      unfold initState at h
      dsimp only at h
      rw [if_neg hv] at h
      cases h
  · intro x hx
    cases hx
  · intro x hx
    cases hx
  · intro x hx
    cases hx
  · intro hx
    cases hx
  · intro v q h
    by_cases hv : v = source
    · subst hv
      exact source_mem_universe g v
    · exfalso
      unfold initState at h
      dsimp only at h
      rw [if_neg hv] at h
      cases h
  · exact List.pairwise_singleton _ _
  · intro u hu
    cases hu

/-- C8: on a well-formed graph with valid link invariants, whenever some
path joins `source` to `dest`, `find_route` returns a path from `source`
to `dest` whose total cost, summing `latency_ms + (1 - quality) * 50` over
its consecutive edges, is minimal among all paths from `source` to
`dest`. -/
theorem find_route_optimal (g : Graph) (source dest : String)
    (hval : ValidLinks g) (hwf : GraphWF g)
    (hex : ∃ p, IsPath g source dest p) :
    IsPath g source dest (find_route g source dest).path ∧
    ∀ p, IsPath g source dest p →
      pathCost g (find_route g source dest).path ≤ pathCost g p := by
  obtain ⟨p0, hp0⟩ := hex
  have hmb : measureD g source (initState source) <
      1 + (universeOf g source).length * (maxDeg g + 1) + 1 := by
    unfold measureD initState
    dsimp only
    rw [List.length_singleton]
    have h1 := List.length_filter_le
      (fun v => decide (v ∉ ([] : List String))) (universeOf g source)
    have h2 := Nat.mul_le_mul_right (maxDeg g + 1) h1
    omega
  set F : DState := dijkstraLoop g dest
    (1 + (universeOf g source).length * (maxDeg g + 1) + 1)
    (initState source) with hF
  obtain ⟨hI, hexit⟩ := dijkstraLoop_inv hval hwf
    (1 + (universeOf g source).length * (maxDeg g + 1) + 1)
    (initState source) (init_inv g source dest) hmb
  rw [← hF] at hI hexit
  rcases hexit with hempty | ⟨cu, hfm, hdest⟩
  · exfalso
    obtain ⟨cv, hcv, _⟩ := cover hval hwf hI hp0 hI.dest_unproc
    rw [hempty] at hcv
    cases hcv
  · have hcu := findMinPair_mem hfm
    obtain ⟨qd, hqd, hqle⟩ := hI.pq_ge cu hcu
    rw [hdest] at hqd
    have hopt : ∀ p, IsPath g source dest p → qd ≤ pathCost g p := by
      intro p hp
      obtain ⟨cv, hcv, hle⟩ := cover hval hwf hI hp hI.dest_unproc
      have h2 := findMinPair_le _ _ hfm cv hcv
      linarith
    obtain ⟨pr, hhead, hlast, hlink, hchain, hnd, huniv, hcost, hbuild⟩ :=
      buildPath_spec hI.toCore dest (hI.reaches dest qd hqd)
    have hpath : IsPath g source dest pr := ⟨hhead, hlast, hlink⟩
    have hprlen : pr.length ≤ (universeOf g source).length := by
      have h1 : pr.toFinset.card = pr.length := List.toFinset_card_of_nodup hnd
      have h2 : pr.toFinset ⊆ (universeOf g source).toFinset := by
        intro x hx
        exact List.mem_toFinset.mpr (huniv x (List.mem_toFinset.mp hx))
      have h3 := Finset.card_le_card h2
      have h4 := (universeOf g source).toFinset_card_le
      omega
    have hcond : (F.prev dest).isSome ∨ dest = source := by
      rcases hI.cost_prev dest qd hqd with h | h
      · exact Or.inr h
      · exact Or.inl h
    have hfr : (find_route g source dest).path =
        buildPath F.prev source ((universeOf g source).length + 1) dest := by
      unfold find_route
      dsimp only
      rw [← hF, if_pos hcond]
    rw [hfr, hbuild ((universeOf g source).length + 1) (by omega)]
    exact ⟨hpath, fun p hp => le_trans (hcost qd hqd) (hopt p hp)⟩

/-- The witness graph: `A → B` (cost 10), `B → C` (cost 10),
`A → C` (cost 15 + 50 = 65); the optimum `A → B → C` costs 20. -/
def gW : Graph :=
  [("A", [("B", { from_device := "A", to_device := "B", quality := 1,
                  latency_ms := 10, bandwidth_mbps := 100 }),
          ("C", { from_device := "A", to_device := "C", quality := 0,
                  latency_ms := 15, bandwidth_mbps := 100 })]),
   ("B", [("C", { from_device := "B", to_device := "C", quality := 1,
                  latency_ms := 10, bandwidth_mbps := 100 })])]

theorem find_route_optimal_witness :
    IsPath gW "A" "C" (find_route gW "A" "C").path ∧
    ∀ p, IsPath gW "A" "C" p →
      pathCost gW (find_route gW "A" "C").path ≤ pathCost gW p :=
  find_route_optimal gW "A" "C" (by unfold ValidLinks gW; decide)
    (by unfold GraphWF gW; decide)
    ⟨["A", "C"], by unfold IsPath lookupEdge adjOf gW; decide⟩

end Routing

end Meshnet
